import Mathlib

/-!
Verification of the bitboard move generator, make/unmake and negamax search of
the `chess-engine` repository, shallowly embedded in Lean 4.

Conventions of the embedding:
* A `Square` is a `Nat` in `0..63` with `a8 = 0, b8 = 1, …, h1 = 63`
  (source: `enum class Square` in `bitboard.h`).  The sentinel
  `Square::INVALID` is modelled as `64`.
* A `Bitboard` is a `Nat`; all values produced by the engine stay below
  `2^64`, and left shifts are wrapped with an explicit 64-bit mask exactly
  where the C++ `uint64_t` arithmetic wraps.
* `PieceWithColor` is a `Nat` in `0..11` (`WhitePawn = 0 … BlackKing = 11`),
  with `InvalidPiece = 12`; the base `Piece` is a `Nat` in `0..5`
  (source: `pieces.h`).
* `Side` is a `Nat`: `0 = White`, `1 = Black` (`2 = WhiteAndBlack` indexes
  the union occupancy).
-/

namespace ChessEngine

/-- All ones in 64 bits; used to wrap `uint64_t` arithmetic. -/
def UINT64_MASK : Nat := 2 ^ 64 - 1

/-- `Bitboard::getBit` (bitboard.h): bit of `bb` at square `sq`. -/
def getBit (bb sq : Nat) : Nat := (bb >>> sq) &&& 1

/-- `Bitboard::setBit` (bitboard.h): set the bit at square `sq`. -/
def setBit (bb sq : Nat) : Nat := bb ||| (1 <<< sq)

/-- `Bitboard::clearBit` (bitboard.h): clear the bit at square `sq`
(`m_bitboard &= ~(1ULL << square)` on 64-bit values). -/
def clearBit (bb sq : Nat) : Nat := bb &&& (UINT64_MASK ^^^ (1 <<< sq))

/-- 64-bit wrapping left shift, as on `uint64_t`. -/
def shl64 (bb s : Nat) : Nat := (bb <<< s) &&& UINT64_MASK

/-- Count of trailing zero bits, by structural recursion on fuel; with 64
steps of fuel the value for `bb = 0` is `64`, matching `countr_zero` on a
`uint64_t`. -/
def ctzAux : Nat → Nat → Nat
  | 0, _ => 0
  | fuel + 1, bb => if bb &&& 1 = 1 then 0 else ctzAux fuel (bb >>> 1) + 1

/-- Modelled from the spec (§4.1): `Bitboard::getSquareOfLeastSignificantBitIndex`
is not among the provided sources; per the spec it returns the index of the
least significant set bit (hardware `countr_zero`; `countr_zero(0) = 64`). -/
def getSquareOfLeastSignificantBitIndex (bb : Nat) : Nat := ctzAux 64 bb

/-- Bit-count recursion on fuel (64 steps cover a `uint64_t`). -/
def popcntAux : Nat → Nat → Nat
  | 0, _ => 0
  | fuel + 1, bb => (bb &&& 1) + popcntAux fuel (bb >>> 1)

/-- `Bitboard::getNumberOfBitsSet` (popcount): number of set bits. -/
def getNumberOfBitsSet (bb : Nat) : Nat := popcntAux 64 bb

/-- The list of set squares of a 64-bit bitboard, least significant first,
with explicit fuel.  This is the iteration order of every
`while (bb != empty)` / `getSquareOfLeastSignificantBitIndex` / `clearBit`
loop of the source; 64 steps of fuel suffice for 64-bit values. -/
def squaresOfAux : Nat → Nat → List Nat
  | 0, _ => []
  | fuel + 1, bb =>
    if bb = 0 then []
    else
      let sq := getSquareOfLeastSignificantBitIndex bb
      sq :: squaresOfAux fuel (clearBit bb sq)

/-- Set squares of a bitboard, least significant first. -/
def squaresOf (bb : Nat) : List Nat := squaresOfAux 64 bb

/-! ### Leaper attacks (`pregenerated_moves.h`) -/

/-- All squares except the `a` file (`pregenerated_moves.h`). -/
def NOT_A_FILE : Nat := 18374403900871474942
/-- All squares except the `h` file. -/
def NOT_H_FILE : Nat := 9187201950435737471
/-- All squares except the `a` and `b` files. -/
def NOT_AB_FILE : Nat := 18229723555195321596
/-- All squares except the `g` and `h` files. -/
def NOT_GH_FILE : Nat := 4557430888798830399

/-- `generatePawnAttacks` (pregenerated_moves.h); `side`: 0 = White, 1 = Black.
The precomputed tables `whitePawnsAttacks` / `blackPawnsAttacks` hold exactly
these values (`initLeaperAttacks`). -/
def generatePawnAttacks (side sq : Nat) : Nat :=
  let bb := 1 <<< sq
  if side = 0 then
    ((bb >>> 7) &&& NOT_A_FILE) ||| ((bb >>> 9) &&& NOT_H_FILE)
  else
    ((shl64 bb 7) &&& NOT_H_FILE) ||| ((shl64 bb 9) &&& NOT_A_FILE)

/-- `generateKnightAttacks` (pregenerated_moves.h); table `knightAttacks`. -/
def generateKnightAttacks (sq : Nat) : Nat :=
  let bb := 1 <<< sq
  ((bb >>> 17) &&& NOT_H_FILE) ||| ((bb >>> 15) &&& NOT_A_FILE) |||
  ((bb >>> 10) &&& NOT_GH_FILE) ||| ((bb >>> 6) &&& NOT_AB_FILE) |||
  ((shl64 bb 17) &&& NOT_A_FILE) ||| ((shl64 bb 15) &&& NOT_H_FILE) |||
  ((shl64 bb 10) &&& NOT_AB_FILE) ||| ((shl64 bb 6) &&& NOT_GH_FILE)

/-- `generateKingAttacks` (pregenerated_moves.h); table `kingAttacks`. -/
def generateKingAttacks (sq : Nat) : Nat :=
  let bb := 1 <<< sq
  (bb >>> 8) ||| ((bb >>> 7) &&& NOT_A_FILE) ||| ((bb >>> 9) &&& NOT_H_FILE) |||
  (shl64 bb 8) ||| ((shl64 bb 7) &&& NOT_H_FILE) ||| ((shl64 bb 9) &&& NOT_A_FILE) |||
  ((bb >>> 1) &&& NOT_H_FILE) ||| ((shl64 bb 1) &&& NOT_A_FILE)

/-! ### Slider attacks (`slider_utils.h`) -/

/-- One ray of `generate{Bishop,Rook}AttacksOnTheFly` (slider_utils.h): walk in
direction `(dr, df)` from `(r, f)`, include every square reached and stop at
(and include) the first square set in `occ`.  The fuel (8 suffices on an
8×8 board) makes the `for`-loop recursion structural. -/
def slideRay : Nat → Int → Int → Int → Int → Nat → Nat
  | 0, _, _, _, _, _ => 0
  | fuel + 1, r, f, dr, df, occ =>
    if 0 ≤ r ∧ r < 8 ∧ 0 ≤ f ∧ f < 8 then
      let t : Nat := (r * 8 + f).toNat
      (1 <<< t) ||| (if getBit occ t = 1 then 0 else slideRay fuel (r + dr) (f + df) dr df occ)
    else 0

/-- `generateBishopAttacksOnTheFly` (slider_utils.h). -/
def generateBishopAttacksOnTheFly (sq occ : Nat) : Nat :=
  let rank : Int := sq / 8
  let file : Int := sq % 8
  slideRay 8 (rank + 1) (file + 1) 1 1 occ |||
  slideRay 8 (rank - 1) (file + 1) (-1) 1 occ |||
  slideRay 8 (rank + 1) (file - 1) 1 (-1) occ |||
  slideRay 8 (rank - 1) (file - 1) (-1) (-1) occ

/-- `generateRookAttacksOnTheFly` (slider_utils.h). -/
def generateRookAttacksOnTheFly (sq occ : Nat) : Nat :=
  let rank : Int := sq / 8
  let file : Int := sq % 8
  slideRay 8 (rank + 1) file 1 0 occ |||
  slideRay 8 (rank - 1) file (-1) 0 occ |||
  slideRay 8 rank (file + 1) 0 1 occ |||
  slideRay 8 rank (file - 1) 0 (-1) occ

/-- One diagonal ray of the bishop *relevant-blocker mask*
(`generateBishopAttacks` in slider_utils.h): like `slideRay` but without
occupancy and stopping before the board edge. -/
def maskRayDiag : Nat → Int → Int → Int → Int → Nat
  | 0, _, _, _, _ => 0
  | fuel + 1, r, f, dr, df =>
    if 0 < r ∧ r < 7 ∧ 0 < f ∧ f < 7 then
      (1 <<< (r * 8 + f).toNat) ||| maskRayDiag fuel (r + dr) (f + df) dr df
    else 0

/-- One vertical ray of the rook mask (`generateRookAttacks`): the guard
constrains the rank only (the fixed file may be on the edge). -/
def maskRayVert : Nat → Int → Int → Int → Nat
  | 0, _, _, _ => 0
  | fuel + 1, r, file, dr =>
    if 0 < r ∧ r < 7 then (1 <<< (r * 8 + file).toNat) ||| maskRayVert fuel (r + dr) file dr
    else 0

/-- One horizontal ray of the rook mask (`generateRookAttacks`). -/
def maskRayHoriz : Nat → Int → Int → Int → Nat
  | 0, _, _, _ => 0
  | fuel + 1, rank, f, df =>
    if 0 < f ∧ f < 7 then (1 <<< (rank * 8 + f).toNat) ||| maskRayHoriz fuel rank (f + df) df
    else 0

/-- `generateBishopAttacks` (slider_utils.h): the relevant-blocker mask of the
bishop at `sq` (diagonals excluding the board edge). -/
def generateBishopAttacks (sq : Nat) : Nat :=
  let rank : Int := sq / 8
  let file : Int := sq % 8
  maskRayDiag 8 (rank + 1) (file + 1) 1 1 |||
  maskRayDiag 8 (rank - 1) (file + 1) (-1) 1 |||
  maskRayDiag 8 (rank + 1) (file - 1) 1 (-1) |||
  maskRayDiag 8 (rank - 1) (file - 1) (-1) (-1)

/-- `generateRookAttacks` (slider_utils.h): the relevant-blocker mask of the
rook at `sq` (rays excluding the final edge square). -/
def generateRookAttacks (sq : Nat) : Nat :=
  let rank : Int := sq / 8
  let file : Int := sq % 8
  maskRayVert 8 (rank + 1) file 1 |||
  maskRayVert 8 (rank - 1) file (-1) |||
  maskRayHoriz 8 rank (file + 1) 1 |||
  maskRayHoriz 8 rank (file - 1) (-1)

/-- `generateOccupancyMask` (slider_utils.h): the blocker subset of
`attackMask` selected by the bits of `index`; bit `i` of `index` selects the
`i`-th lowest set square of the mask.  `fuel` is the running loop bound
(`getNumberOfBitsSet attackMask` at the call site), `i` the running bit
position, `acc` the occupancy being built. -/
def generateOccupancyMaskAux : Nat → Nat → Nat → Nat → Nat → Nat
  | 0, _, _, _, acc => acc
  | fuel + 1, index, i, attackMask, acc =>
    let sq := getSquareOfLeastSignificantBitIndex attackMask
    let attackMask' := clearBit attackMask sq
    let acc' := if index &&& (1 <<< i) ≠ 0 then setBit acc sq else acc
    generateOccupancyMaskAux fuel index (i + 1) attackMask' acc'

/-- `generateOccupancyMask` (slider_utils.h). -/
def generateOccupancyMask (index attackMask : Nat) : Nat :=
  generateOccupancyMaskAux (getNumberOfBitsSet attackMask) index 0 attackMask 0

/-- `BISHOP_RELEVANT_BITS` (slider_utils.h). -/
def BISHOP_RELEVANT_BITS : List Nat :=
  [6, 5, 5, 5, 5, 5, 5, 6,
   5, 5, 5, 5, 5, 5, 5, 5,
   5, 5, 7, 7, 7, 7, 5, 5,
   5, 5, 7, 9, 9, 7, 5, 5,
   5, 5, 7, 9, 9, 7, 5, 5,
   5, 5, 7, 7, 7, 7, 5, 5,
   5, 5, 5, 5, 5, 5, 5, 5,
   6, 5, 5, 5, 5, 5, 5, 6]

/-- `ROOK_RELEVANT_BITS` (slider_utils.h). -/
def ROOK_RELEVANT_BITS : List Nat :=
  [12, 11, 11, 11, 11, 11, 11, 12,
   11, 10, 10, 10, 10, 10, 10, 11,
   11, 10, 10, 10, 10, 10, 10, 11,
   11, 10, 10, 10, 10, 10, 10, 11,
   11, 10, 10, 10, 10, 10, 10, 11,
   11, 10, 10, 10, 10, 10, 10, 11,
   11, 10, 10, 10, 10, 10, 10, 11,
   12, 11, 11, 11, 11, 11, 11, 12]

/-! ### Attack lookups used by `Board`

`getBishopAttacks` / `getRookAttacks` (pregenerated_moves.h) index the
magic-number tables filled by `initSlider`.  The magic constants (`magic.h`)
are not among the provided sources.  Modelled from the spec (§4.2, §9): the
magic multipliers form a perfect hash on each square's relevant-blocker
subsets, so the lookup returns the on-the-fly attack set of the occupancy
masked to the relevant blockers; theorem `C7` below proves this equation
from the table-construction loop for any magic family with that property. -/

/-- `getBishopAttacks` (pregenerated_moves.h), via the spec's perfect-hash
contract for the magic tables. -/
def getBishopAttacks (sq occ : Nat) : Nat :=
  generateBishopAttacksOnTheFly sq (occ &&& generateBishopAttacks sq)

/-- `getRookAttacks` (pregenerated_moves.h), via the spec's perfect-hash
contract for the magic tables. -/
def getRookAttacks (sq occ : Nat) : Nat :=
  generateRookAttacksOnTheFly sq (occ &&& generateRookAttacks sq)

/-- `getQueenAttacks` (pregenerated_moves.h): bishop ∪ rook. -/
def getQueenAttacks (sq occ : Nat) : Nat :=
  getBishopAttacks sq occ ||| getRookAttacks sq occ

/-- `getKnightAttacks` (pregenerated_moves.h): the occupancy is ignored. -/
def getKnightAttacks (sq _occ : Nat) : Nat := generateKnightAttacks sq

/-- `getKingAttacks` (pregenerated_moves.h): the occupancy is ignored. -/
def getKingAttacks (sq _occ : Nat) : Nat := generateKingAttacks sq

/-! ### Move (`move.h` / `move.cpp`) -/

/-- The `Move` record (move.h): squares are `0..63`, `piece` and
`promotedPiece` are `PieceWithColor` indices (`12` = `InvalidPiece`),
`capturedPiece` is a base `Piece` index defaulting to `0` (`Pawn`). -/
structure Move where
  source : Nat
  target : Nat
  piece : Nat
  promotedPiece : Nat
  capturedPiece : Nat
  isCapture : Bool
  isPawnDoublePush : Bool
  isEnPassant : Bool
  isCastling : Bool
deriving DecidableEq, Repr

/-- `Move::Move()` (move.cpp): the default, invalid move. -/
def Move.null : Move :=
  { source := 64, target := 64, piece := 12, promotedPiece := 12,
    capturedPiece := 0, isCapture := false, isPawnDoublePush := false,
    isEnPassant := false, isCastling := false }

/-- The eight-argument `Move` constructor (move.cpp) used by the move
generator: it delegates with `capturedPiece = Pawn` (`0`). -/
def Move.mk8 (source target piece promotedPiece : Nat)
    (isCapture isPawnDoublePush isEnPassant isCastling : Bool) : Move :=
  { source := source, target := target, piece := piece,
    promotedPiece := promotedPiece, capturedPiece := 0,
    isCapture := isCapture, isPawnDoublePush := isPawnDoublePush,
    isEnPassant := isEnPassant, isCastling := isCastling }

/-- `Move::isPromotion` (move.cpp). -/
def Move.isPromotion (m : Move) : Bool := m.promotedPiece ≠ 12

/-! ### Board (`board.h` / `board.cpp`) -/

/-- The `Board` state (board.h): twelve piece bitboards
(`WhitePawn = 0 … BlackKing = 11`), three occupancies
(`White = 0, Black = 1, WhiteAndBlack = 2`), side to move, castling rights
(bit 0 = WhiteShort, 1 = WhiteLong, 2 = BlackShort, 3 = BlackLong),
en-passant square (`64` = `INVALID`) and the two move counters. -/
structure Board where
  pieces : List Nat
  occupancies : List Nat
  sideToMove : Nat
  castlingRights : Nat
  enPassantSquare : Nat
  halfMoveClock : Nat
  fullMoveNumber : Nat
deriving DecidableEq, Repr

/-- The bitboard of piece `i` (`m_bitboardsPieces[i]`). -/
def Board.pieceBB (b : Board) (i : Nat) : Nat := b.pieces.getD i 0

/-- The occupancy of side `s` (`m_occupancies[s]`). -/
def Board.occ (b : Board) (s : Nat) : Nat := b.occupancies.getD s 0

/-- `Board::isSquareAttacked(square, side)` (board.cpp): true iff a piece of
`side` attacks `square`; hypothetical pieces are placed on `square` and their
attack sets intersected with the side's piece bitboards. -/
def isSquareAttacked (b : Board) (square side : Nat) : Bool :=
  (if side = 0 then generatePawnAttacks 1 square &&& b.pieceBB 0 ≠ 0
   else generatePawnAttacks 0 square &&& b.pieceBB 6 ≠ 0) ||
  generateKnightAttacks square &&& b.pieceBB (if side = 0 then 1 else 7) ≠ 0 ||
  getBishopAttacks square (b.occ 2) &&& b.pieceBB (if side = 0 then 2 else 8) ≠ 0 ||
  getRookAttacks square (b.occ 2) &&& b.pieceBB (if side = 0 then 3 else 9) ≠ 0 ||
  getQueenAttacks square (b.occ 2) &&& b.pieceBB (if side = 0 then 4 else 10) ≠ 0 ||
  generateKingAttacks square &&& b.pieceBB (if side = 0 then 5 else 11) ≠ 0

/-- Recompute the three occupancies from the twelve piece bitboards, as the
final `// Update occupancies` loop of `Board::makeMove` (board.cpp). -/
def recomputeOccupancies (pieces : List Nat) : List Nat :=
  let occW := (List.range 6).foldl (fun acc i => acc ||| pieces.getD i 0) 0
  let occB := (List.range 6).foldl (fun acc i => acc ||| pieces.getD (6 + i) 0) 0
  [occW, occB, occW ||| occB]

/-- Steps of `Board::makeMove` (board.cpp) up to the en-passant removal:
move the piece, remove a captured piece (first opponent bitboard with a bit
on the target, searched `Pawn..King`), replace a promoting pawn by the
promoted piece, and remove the en-passant victim. -/
def movedPieces (b : Board) (m : Move) : List Nat :=
  let p := b.pieces.set m.piece (clearBit (b.pieceBB m.piece) m.source)
  let p := p.set m.piece (setBit (p.getD m.piece 0) m.target)
  let p :=
    if m.isCapture then
      let base := if b.sideToMove = 0 then 6 else 0
      match (List.range' base 6).find? (fun i => getBit (p.getD i 0) m.target = 1) with
      | some i => p.set i (clearBit (p.getD i 0) m.target)
      | none => p
    else p
  let p :=
    if m.promotedPiece ≠ 12 then
      let pawn := if b.sideToMove = 0 then 0 else 6
      (p.set pawn (clearBit (p.getD pawn 0) m.target)).set m.promotedPiece
        (setBit (p.getD m.promotedPiece 0) m.target)
    else p
  if m.isEnPassant then
    let pawn := if b.sideToMove = 0 then 6 else 0
    let capturedPawnSquare := if b.sideToMove = 0 then m.target + 8 else m.target - 8
    p.set pawn (clearBit (p.getD pawn 0) capturedPawnSquare)
  else p

/-- The en-passant square after `Board::makeMove`: reset to `INVALID`, then
set to the square behind the pawn on a double push. -/
def newEnPassantSquare (b : Board) (m : Move) : Nat :=
  if m.isPawnDoublePush then (if b.sideToMove = 0 then m.target + 8 else m.target - 8)
  else 64

/-- Whether `target` is one of the four castling targets of the `switch` in
`Board::makeMove` (g1 = 62, c1 = 58, g8 = 6, c8 = 2); any other target of a
castling-flagged move hits the `default: return false` branch. -/
def castleTargetValid (target : Nat) : Bool :=
  target = 62 || target = 58 || target = 6 || target = 2

/-- The rook relocation of the castling `switch` in `Board::makeMove`. -/
def castleRookMove (side target : Nat) (pieces : List Nat) : List Nat :=
  let rook := if side = 0 then 3 else 9
  let bb := pieces.getD rook 0
  if target = 62 then pieces.set rook (clearBit (setBit bb 61) 63)
  else if target = 58 then pieces.set rook (clearBit (setBit bb 59) 56)
  else if target = 6 then pieces.set rook (clearBit (setBit bb 5) 7)
  else if target = 2 then pieces.set rook (clearBit (setBit bb 3) 0)
  else pieces

/-- Clear a castling-rights flag (`m_castlingRights &= ~flag` on the `int`
underlying `CastlingRights`). -/
def clearRight (r flag : Nat) : Nat := r &&& ((2 ^ 32 - 1) ^^^ flag)

/-- The castling-rights update of `Board::makeMove` (board.cpp:387-401): king
moves clear both rights of the mover; then a single `if / else if` chain over
a1 (56), h1 (63), a8 (0), h8 (7) as source *or* target clears at most one
rook right — the first one that matches. -/
def updatedCastlingRights (m : Move) (r : Nat) : Nat :=
  let r := if m.piece = 5 then clearRight (clearRight r 1) 2
           else if m.piece = 11 then clearRight (clearRight r 4) 8
           else r
  if m.source = 56 ∨ m.target = 56 then clearRight r 2
  else if m.source = 63 ∨ m.target = 63 then clearRight r 1
  else if m.source = 0 ∨ m.target = 0 then clearRight r 8
  else if m.source = 7 ∨ m.target = 7 then clearRight r 4
  else r

/-- The board produced by the success path of `Board::makeMove`, before the
final self-check test: all bitboard updates, the castling rook move, the
castling-rights update, recomputed occupancies and the toggled side. -/
def applyMove (b : Board) (m : Move) : Board :=
  let p := movedPieces b m
  let p := if m.isCastling then castleRookMove b.sideToMove m.target p else p
  { pieces := p
    occupancies := recomputeOccupancies p
    sideToMove := if b.sideToMove = 0 then 1 else 0
    castlingRights := updatedCastlingRights m b.castlingRights
    enPassantSquare := newEnPassantSquare b m
    halfMoveClock := b.halfMoveClock
    fullMoveNumber := b.fullMoveNumber }

/-- `Board::makeMove` (board.cpp): apply the move and return `true`, except
that a castling-flagged move with an invalid target returns `false` leaving
the partially updated board behind (the `default` branch of the `switch`),
and a move after which the mover's king is attacked returns `false` with the
saved board restored (`*this = boardBeforeMove`). -/
def makeMove (b : Board) (m : Move) : Bool × Board :=
  if m.isCastling = true ∧ castleTargetValid m.target = false then
    (false, { b with pieces := movedPieces b m, enPassantSquare := newEnPassantSquare b m })
  else
    let nb := applyMove b m
    let king := if nb.sideToMove = 0 then 11 else 5
    let kingSquare := getSquareOfLeastSignificantBitIndex (nb.pieceBB king)
    if isSquareAttacked nb kingSquare nb.sideToMove then (false, b)
    else (true, nb)

/-! ### Move generation (`board.cpp`) -/

/-- The moves `Board::generatePawnMoves` emits for the single pawn `piece`
(0 = WhitePawn, 6 = BlackPawn) standing on `source`: forward pushes and
promotions (always promoting to the *White* piece constants 1..4, as in the
source), the double push, captures, and the en-passant capture, in emission
order. -/
def pawnMovesFrom (b : Board) (piece source : Nat) : List Move :=
  let white := piece = 0
  let target := if white then source - 8 else source + 8
  let isPromotion := (white ∧ 8 ≤ source ∧ source ≤ 15) ∨ (¬white ∧ 48 ≤ source ∧ source ≤ 55)
  let isDoublePush := (white ∧ 48 ≤ source ∧ source ≤ 55) ∨ (¬white ∧ 8 ≤ source ∧ source ≤ 15)
  let attacks := if white then generatePawnAttacks 0 source &&& b.occ 1
                 else generatePawnAttacks 1 source &&& b.occ 0
  let pushPart :=
    if getBit (b.occ 2) target = 0 then
      if isPromotion then
        [Move.mk8 source target piece 1 false false false false,
         Move.mk8 source target piece 2 false false false false,
         Move.mk8 source target piece 3 false false false false,
         Move.mk8 source target piece 4 false false false false]
      else
        Move.mk8 source target piece 12 false false false false ::
        (if isDoublePush then
          let target2 := if white then target - 8 else target + 8
          if getBit (b.occ 2) target2 = 0 then
            [Move.mk8 source target2 piece 12 false true false false]
          else []
         else [])
    else []
  let capturePart :=
    (squaresOf attacks).flatMap fun tgt =>
      if isPromotion then
        [Move.mk8 source tgt piece 1 true false false false,
         Move.mk8 source tgt piece 2 true false false false,
         Move.mk8 source tgt piece 3 true false false false,
         Move.mk8 source tgt piece 4 true false false false]
      else [Move.mk8 source tgt piece 12 true false false false]
  let epPart :=
    if b.enPassantSquare ≠ 64 then
      let epBB :=
        if piece = 0 ∧ b.sideToMove = 0 then
          generatePawnAttacks 0 source &&& (1 <<< b.enPassantSquare)
        else if piece = 6 ∧ b.sideToMove = 1 then
          generatePawnAttacks 1 source &&& (1 <<< b.enPassantSquare)
        else 0
      if epBB ≠ 0 then
        [Move.mk8 source b.enPassantSquare piece 12 true false true false]
      else []
    else []
  pushPart ++ capturePart ++ epPart

/-- `Board::generatePawnMoves` (board.cpp): iterate the pawn bitboard. -/
def generatePawnMoves (b : Board) (piece : Nat) : List Move :=
  (squaresOf (b.pieceBB piece)).flatMap (pawnMovesFrom b piece)

/-- The attack-function dispatch of `Board::generatePieceMoves`; pawns fall
into the `default: return` branch, modelled by an empty attack set. -/
def pieceAttacks (piece sq allOcc : Nat) : Nat :=
  if piece = 1 ∨ piece = 7 then getKnightAttacks sq allOcc
  else if piece = 2 ∨ piece = 8 then getBishopAttacks sq allOcc
  else if piece = 3 ∨ piece = 9 then getRookAttacks sq allOcc
  else if piece = 4 ∨ piece = 10 then getQueenAttacks sq allOcc
  else if piece = 5 ∨ piece = 11 then getKingAttacks sq allOcc
  else 0

/-- `Board::generatePieceMoves` (board.cpp): moves of knight, bishop, rook,
queen and king; attacks are masked by the own occupancy, targets on the
opponent occupancy are captures; pawns produce nothing (`default: return`). -/
def generatePieceMoves (b : Board) (piece : Nat) : List Move :=
  if piece = 0 ∨ piece = 6 then []
  else
    let side := if piece ≤ 5 then 0 else 1
    let occupancy := b.occ side
    let opponentOccupancy := b.occ (1 - side)
    let allOccupancy := occupancy ||| opponentOccupancy
    (squaresOf (b.pieceBB piece)).flatMap fun source =>
      (squaresOf (pieceAttacks piece source allOccupancy &&& (UINT64_MASK ^^^ occupancy))).map
        fun target =>
          if getBit opponentOccupancy target = 0 then
            Move.mk8 source target piece 12 false false false false
          else
            Move.mk8 source target piece 12 true false false false

/-- `Board::generateKingCastlingMoves` (board.cpp): short then long castling
for the given king; each requires the right, empty between-squares, and —
as written in the source — that *every* checked square (b1/b8 included for
the long side) is unattacked by the opponent. -/
def generateKingCastlingMoves (b : Board) (piece : Nat) : List Move :=
  if piece = 5 then
    (if b.castlingRights &&& 1 ≠ 0 ∧
        getBit (b.occ 2) 61 = 0 ∧ getBit (b.occ 2) 62 = 0 ∧
        ¬isSquareAttacked b 60 1 ∧ ¬isSquareAttacked b 61 1 ∧ ¬isSquareAttacked b 62 1 then
      [Move.mk8 60 62 5 12 false false false true]
     else []) ++
    (if b.castlingRights &&& 2 ≠ 0 ∧
        getBit (b.occ 2) 57 = 0 ∧ getBit (b.occ 2) 58 = 0 ∧ getBit (b.occ 2) 59 = 0 ∧
        ¬isSquareAttacked b 57 1 ∧ ¬isSquareAttacked b 58 1 ∧
        ¬isSquareAttacked b 59 1 ∧ ¬isSquareAttacked b 60 1 then
      [Move.mk8 60 58 5 12 false false false true]
     else [])
  else if piece = 11 then
    (if b.castlingRights &&& 4 ≠ 0 ∧
        getBit (b.occ 2) 5 = 0 ∧ getBit (b.occ 2) 6 = 0 ∧
        ¬isSquareAttacked b 4 0 ∧ ¬isSquareAttacked b 5 0 ∧ ¬isSquareAttacked b 6 0 then
      [Move.mk8 4 6 11 12 false false false true]
     else []) ++
    (if b.castlingRights &&& 8 ≠ 0 ∧
        getBit (b.occ 2) 1 = 0 ∧ getBit (b.occ 2) 2 = 0 ∧ getBit (b.occ 2) 3 = 0 ∧
        ¬isSquareAttacked b 1 0 ∧ ¬isSquareAttacked b 2 0 ∧
        ¬isSquareAttacked b 3 0 ∧ ¬isSquareAttacked b 4 0 then
      [Move.mk8 4 2 11 12 false false false true]
     else [])
  else []

/-- `Board::generateMoves` (board.cpp): the pseudo-legal moves of the side to
move, in emission order (pieces `Pawn..King`; pawn moves, then piece moves,
then — for the king — castling). -/
def generateMoves (b : Board) : List Move :=
  let base := if b.sideToMove = 0 then 0 else 6
  (List.range' base 6).flatMap fun piece =>
    (if piece = 0 ∨ piece = 6 then generatePawnMoves b piece else []) ++
    generatePieceMoves b piece ++
    (if piece = 5 ∨ piece = 11 then generateKingCastlingMoves b piece else [])

/-- `perft` (tests/perft.cpp): number of leaves of the pseudo-legal move tree
filtered by `makeMove`, at the given depth. -/
def perft : Nat → Board → Nat
  | 0, _ => 1
  | depth + 1, b =>
    (generateMoves b).foldl
      (fun nodes m =>
        let r := makeMove b m
        if r.fst then nodes + perft depth r.snd else nodes) 0

/-- Helper for stating concrete positions: the board with the given
`(piece, square)` placements, side to move, castling rights and en-passant
square, occupancies included. -/
def boardOfPieces (ps : List (Nat × Nat)) (side rights ep : Nat) : Board :=
  let pieces := ps.foldl (fun acc pr => acc.set pr.fst (setBit (acc.getD pr.fst 0) pr.snd))
    (List.replicate 12 0)
  { pieces := pieces
    occupancies := recomputeOccupancies pieces
    sideToMove := side
    castlingRights := rights
    enPassantSquare := ep
    halfMoveClock := 0
    fullMoveNumber := 1 }

/-- The standard starting position
(`rnbqkbnr/pppppppp/8/8/8/8/PPPPPPPP/RNBQKBNR w KQkq - 0 1`). -/
def startpos : Board :=
  boardOfPieces
    [(9, 0), (7, 1), (8, 2), (10, 3), (11, 4), (8, 5), (7, 6), (9, 7),
     (6, 8), (6, 9), (6, 10), (6, 11), (6, 12), (6, 13), (6, 14), (6, 15),
     (0, 48), (0, 49), (0, 50), (0, 51), (0, 52), (0, 53), (0, 54), (0, 55),
     (3, 56), (1, 57), (2, 58), (4, 59), (5, 60), (2, 61), (1, 62), (3, 63)]
    0 15 64

/-! ### Evaluation (`evaluate.cpp` / `evaluate.h`) -/

/-- `s_piecesValues` (evaluate.h): material values, Black negated. -/
def s_piecesValues : List Int :=
  [100, 300, 300, 500, 900, 20000, -100, -300, -300, -500, -900, -20000]

/-- `s_pawnTable` (evaluate.h). -/
def s_pawnTable : List Int :=
  [0, 0, 0, 0, 0, 0, 0, 0,
   50, 50, 50, 50, 50, 50, 50, 50,
   10, 10, 20, 30, 30, 20, 10, 10,
   5, 5, 10, 25, 25, 10, 5, 5,
   0, 0, 0, 20, 20, 0, 0, 0,
   5, -5, -10, 0, 0, -10, -5, 5,
   5, 10, 10, -20, -20, 10, 10, 5,
   0, 0, 0, 0, 0, 0, 0, 0]

/-- `s_knightTable` (evaluate.h). -/
def s_knightTable : List Int :=
  [-50, -40, -30, -30, -30, -30, -40, -50,
   -40, -20, 0, 0, 0, 0, -20, -40,
   -30, 0, 10, 15, 15, 10, 0, -30,
   -30, 5, 15, 20, 20, 15, 5, -30,
   -30, 0, 15, 20, 20, 15, 0, -30,
   -30, 5, 10, 15, 15, 10, 5, -30,
   -40, -20, 0, 5, 5, 0, -20, -40,
   -50, -40, -30, -30, -30, -30, -40, -50]

/-- `s_bishopTable` (evaluate.h). -/
def s_bishopTable : List Int :=
  [-20, -10, -10, -10, -10, -10, -10, -20,
   -10, 0, 0, 0, 0, 0, 0, -10,
   -10, 0, 5, 10, 10, 5, 0, -10,
   -10, 5, 5, 10, 10, 5, 5, -10,
   -10, 0, 10, 10, 10, 10, 0, -10,
   -10, 10, 10, 10, 10, 10, 10, -10,
   -10, 5, 0, 0, 0, 0, 5, -10,
   -20, -10, -10, -10, -10, -10, -10, -20]

/-- `s_rookTable` (evaluate.h). -/
def s_rookTable : List Int :=
  [0, 0, 0, 0, 0, 0, 0, 0,
   5, 10, 10, 10, 10, 10, 10, 5,
   -5, 0, 0, 0, 0, 0, 0, -5,
   -5, 0, 0, 0, 0, 0, 0, -5,
   -5, 0, 0, 0, 0, 0, 0, -5,
   -5, 0, 0, 0, 0, 0, 0, -5,
   -5, 0, 0, 0, 0, 0, 0, -5,
   0, 0, 0, 5, 5, 0, 0, 0]

/-- `s_queenTable` (evaluate.h). -/
def s_queenTable : List Int :=
  [-20, -10, -10, -5, -5, -10, -10, -20,
   -10, 0, 0, 0, 0, 0, 0, -10,
   -10, 0, 5, 5, 5, 5, 0, -10,
   -5, 0, 5, 5, 5, 5, 0, -5,
   0, 0, 5, 5, 5, 5, 0, -5,
   -10, 5, 5, 5, 5, 5, 0, -10,
   -10, 0, 5, 0, 0, 0, 0, -10,
   -20, -10, -10, -5, -5, -10, -10, -20]

/-- `s_kingMiddleGameTable` (evaluate.h). -/
def s_kingMiddleGameTable : List Int :=
  [-30, -40, -40, -50, -50, -40, -40, -30,
   -30, -40, -40, -50, -50, -40, -40, -30,
   -30, -40, -40, -50, -50, -40, -40, -30,
   -30, -40, -40, -50, -50, -40, -40, -30,
   -20, -30, -30, -40, -40, -30, -30, -20,
   -10, -20, -20, -20, -20, -20, -20, -10,
   20, 20, 0, 0, 0, 0, 20, 20,
   20, 30, 10, 0, 0, 10, 30, 20]

/-- The piece-square term of `Evaluate::evaluatePosition` for one piece on
one square (White indexed by the square, Black mirrored by `63 - square`). -/
def pstTerm (piece sq : Nat) : Int :=
  if piece = 0 then s_pawnTable.getD sq 0
  else if piece = 6 then -s_pawnTable.getD (63 - sq) 0
  else if piece = 1 then s_knightTable.getD sq 0
  else if piece = 7 then -s_knightTable.getD (63 - sq) 0
  else if piece = 2 then s_bishopTable.getD sq 0
  else if piece = 8 then -s_bishopTable.getD (63 - sq) 0
  else if piece = 3 then s_rookTable.getD sq 0
  else if piece = 9 then -s_rookTable.getD (63 - sq) 0
  else if piece = 4 then s_queenTable.getD sq 0
  else if piece = 10 then -s_queenTable.getD (63 - sq) 0
  else if piece = 5 then s_kingMiddleGameTable.getD sq 0
  else if piece = 11 then -s_kingMiddleGameTable.getD (63 - sq) 0
  else 0

/-- `Evaluate::evaluatePosition` (evaluate.cpp): material plus piece-square
terms over every set bit of the twelve bitboards, signed from the side to
move's perspective. -/
def evaluatePosition (b : Board) : Int :=
  let score := (List.range 12).foldl
    (fun acc piece =>
      (squaresOf (b.pieceBB piece)).foldl
        (fun acc2 sq => acc2 + s_piecesValues.getD piece 0 + pstTerm piece sq) acc) 0
  if b.sideToMove = 0 then score else -score

/-! ### Search (`search.cpp` / `search.h` / `move.cpp`) -/

/-- `maxPly` (search.h; spec §3: capacity of a PV line, 256). -/
def maxPly : Nat := 256

/-- `positiveInfinity` (search.h): `INT_MAX`. -/
def positiveInfinity : Int := 2147483647

/-- `negativeInfinity` (search.h): `-INT_MAX`. -/
def negativeInfinity : Int := -positiveInfinity

/-- The mutable search scratch of `Search` (search.h): the two killer-move
slots per ply, the history-heuristic table indexed by piece and target
square, and the node counter. -/
structure SearchSt where
  killers0 : Nat → Move
  killers1 : Nat → Move
  history : Nat → Nat → Int
  nodes : Nat

/-- `Search::resetSearchData` (search.cpp): cleared scratch. -/
def initSearchSt : SearchSt :=
  { killers0 := fun _ => Move.null, killers1 := fun _ => Move.null,
    history := fun _ _ => 0, nodes := 0 }

/-- `Move::calculateScore(ply, isPV)` (move.cpp): the ordering key — PV
bonus, MVV-LVA for captures, killer/history for quiet moves, promotion and
castling bonuses. -/
def calculateScore (m : Move) (ply : Nat) (isPV : Bool) (st : SearchSt) : Int :=
  let score : Int := if isPV then 2000 else 0
  let score :=
    if m.isCapture then
      score + (1000 + 10 * (m.capturedPiece : Int) - (m.piece % 6 : Nat))
    else
      if st.killers0 ply = m then score + 500
      else if st.killers1 ply = m then score + 400
      else score + st.history m.piece m.target
  let score := if m.promotedPiece ≠ 12 then score + (300 + (m.promotedPiece : Int)) else score
  if m.isCastling then score + 200 else score

/-- The `isPV` test of the comparator in `Search::sortMoves`:
`pvLine.length > 0 && ply < pvLine.length && pvLine.moves[ply] == move`.
A PV line is modelled as the list of its meaningful prefix. -/
def isPVMove (pv : List Move) (ply : Nat) (m : Move) : Bool :=
  pv.length > 0 && ply < pv.length && pv.getD ply Move.null = m

/-- `Search::sortMoves` (search.cpp): sort descending by `calculateScore`.
`std::sort` leaves the order of equal keys unspecified; a stable insertion
sort is the refinement used here. -/
def sortMoves (moves : List Move) (ply : Nat) (pv : List Move) (st : SearchSt) : List Move :=
  List.insertionSort
    (fun a b => calculateScore b ply (isPVMove pv ply b) st ≤
                calculateScore a ply (isPVMove pv ply a) st) moves

/-- Modelled from the spec (§4.3): `Board::isCheck` is declared in the
missing current `board.h`; it tests whether the side to move's king square
is attacked by the opponent. -/
def isCheck (b : Board) : Bool :=
  let king := if b.sideToMove = 0 then 5 else 11
  isSquareAttacked b (getSquareOfLeastSignificantBitIndex (b.pieceBB king))
    (if b.sideToMove = 0 then 1 else 0)

/-- Modelled from the spec (§4.6 step 4): `Board::makeNullMove` is not among
the provided sources; it toggles the side to move and clears the en-passant
square. -/
def makeNullMove (b : Board) : Board :=
  { b with sideToMove := if b.sideToMove = 0 then 1 else 0, enPassantSquare := 64 }

/-- `Search::canPrune` (search.cpp): the null-move-pruning guard
(`NullMovePruningReduction = 2`, so `depth ≥ 3`). -/
def canPrune (isChk : Bool) (depth ply pvLineLength : Nat) : Bool :=
  !isChk && depth ≥ 3 && ply ≠ 0 && pvLineLength = 0

/-- `Search::canReduce` (search.cpp): the late-move-reduction guard
(`lateMoveReductionThreshold = 3`, `minDepthForLMR = 2`). -/
def canReduce (moveIndex : Nat) (m : Move) (isChk : Bool) (depth extension : Nat) : Bool :=
  moveIndex > 3 && !m.isCapture && !m.isPromotion && !isChk && depth > 2 && extension = 0

/-- Point update of a function table (models writing a C++ array slot). -/
def updFn {α : Type} (f : Nat → α) (i : Nat) (v : α) : Nat → α :=
  fun j => if j = i then v else f j

/-- Point update of a two-dimensional function table. -/
def updFn2 {α : Type} (f : Nat → Nat → α) (i j : Nat) (v : α) : Nat → Nat → α :=
  fun i' j' => if i' = i ∧ j' = j then v else f i' j'

/-- The body of the capture loop of `Search::quiescence` (search.cpp), with
the recursive call abstracted as `qf` so that the loop recurses structurally
on the move list.  State: current `alpha` and search scratch. -/
def qLoop (qf : Int → Int → Board → Nat → SearchSt → Int × SearchSt)
    (beta : Int) (b : Board) (ply : Nat) :
    List Move → Int → SearchSt → Int × SearchSt
  | [], alpha, st => (alpha, st)
  | m :: rest, alpha, st =>
    if !m.isCapture then qLoop qf beta b ply rest alpha st
    else
      let r := makeMove b m
      if !r.fst then qLoop qf beta b ply rest alpha st
      else
        let q := qf (-beta) (-alpha) r.snd (ply + 1) st
        let score := -q.fst
        if beta ≤ score then (beta, q.snd)
        else if alpha < score then qLoop qf beta b ply rest score q.snd
        else qLoop qf beta b ply rest alpha q.snd

/-- `Search::quiescence` (search.cpp), with fuel making the `ply`-bounded
recursion structural: under the invariant `fuel = maxPly - ply` the fuel-0
case coincides with the `ply >= maxPly` entry return. -/
def quiescence : Nat → Int → Int → Board → Nat → SearchSt → Int × SearchSt
  | 0, _alpha, _beta, b, _ply, st =>
    ((evaluatePosition b), { st with nodes := st.nodes + 1 })
  | fuel + 1, alpha, beta, b, ply, st =>
    let st := { st with nodes := st.nodes + 1 }
    let evaluation := evaluatePosition b
    if maxPly ≤ ply then (evaluation, st)
    else if beta ≤ evaluation then (beta, st)
    else
      let alpha := if alpha < evaluation then evaluation else alpha
      let moves := sortMoves (generateMoves b) ply [] st
      qLoop (quiescence fuel) beta b ply moves alpha st

/-- The principal-variation-search cascade of the move loop of
`Search::negamax` (search.cpp): the first searched move gets the full
window; later moves get a reduced null-window probe when `canReduce` holds,
then a null-window re-search at full depth, then a full-window re-search
when the null-window score lands strictly inside the window. -/
def pvsChild
    (nf : Int → Int → Board → List Move → Nat → Nat → SearchSt → Int × List Move × SearchSt)
    (beta : Int) (depth ply : Nat) (isChk : Bool) (extension : Nat) (m : Move) (nb : Board)
    (idx : Nat) (alpha : Int) (line : List Move) (st : SearchSt) (movesSearched : Nat) :
    Int × List Move × SearchSt :=
  if movesSearched = 0 then
    let c1 := nf (-beta) (-alpha) nb line (depth - 1 + extension) (ply + 1) st
    (-c1.fst, c1.2.1, c1.2.2)
  else
    let c0 :=
      if canReduce idx m isChk depth extension then
        let c1 := nf (-alpha - 1) (-alpha) nb line (depth - 2 + extension) (ply + 1) st
        (-c1.fst, c1.2.1, c1.2.2)
      else (alpha + 1, line, st)
    if alpha < c0.fst then
      let c2 := nf (-alpha - 1) (-alpha) nb c0.2.1 (depth - 1 + extension) (ply + 1) c0.2.2
      if alpha < -c2.fst ∧ -c2.fst < beta then
        let c3 := nf (-beta) (-alpha) nb c2.2.1 (depth - 1 + extension) (ply + 1) c2.2.2
        (-c3.fst, c3.2.1, c3.2.2)
      else (-c2.fst, c2.2.1, c2.2.2)
    else c0

/-- The body of the move loop of `Search::negamax` (search.cpp), with the
recursive call abstracted as `nf`.  Loop state: the running move index
(`moveIndex`, counting skipped illegal moves too), `alpha`, the local child
PV (`line`, shared across all searches of the loop), the function's output
PV (`pvOut`), the scratch, `movesSearched` and `hasLegalMoves`. -/
def nmLoop (nf : Int → Int → Board → List Move → Nat → Nat → SearchSt → Int × List Move × SearchSt)
    (beta : Int) (b : Board) (depth ply : Nat) (isChk : Bool) (extension : Nat) :
    List Move → Nat → Int → List Move → List Move → SearchSt → Nat → Bool →
    Int × List Move × SearchSt
  | [], _idx, alpha, _line, pvOut, st, _movesSearched, hasLegal =>
    if hasLegal then (alpha, pvOut, st)
    else if isChk then (negativeInfinity + (ply : Int), pvOut, st)
    else (0, pvOut, st)
  | m :: rest, idx, alpha, line, pvOut, st, movesSearched, hasLegal =>
    let r := makeMove b m
    if !r.fst then
      nmLoop nf beta b depth ply isChk extension rest (idx + 1) alpha line pvOut st
        movesSearched hasLegal
    else
      let nb := r.snd
      let c := pvsChild nf beta depth ply isChk extension m nb idx alpha line st movesSearched
      let score := c.fst
      let line := c.2.1
      let st := c.2.2
      if beta ≤ score then
        let st :=
          if !m.isCapture then
            { st with killers1 := updFn st.killers1 ply (st.killers0 ply),
                      killers0 := updFn st.killers0 ply m }
          else st
        (beta, pvOut, st)
      else if alpha < score then
        let st :=
          if !m.isCapture then
            { st with history := updFn2 st.history m.piece m.target
                        (st.history m.piece m.target + (depth : Int) * (depth : Int)) }
          else st
        nmLoop nf beta b depth ply isChk extension rest (idx + 1) score line (m :: line) st
          (movesSearched + 1) true
      else
        nmLoop nf beta b depth ply isChk extension rest (idx + 1) alpha line pvOut st
          (movesSearched + 1) true

/-- `Search::negamax` (search.cpp): alpha-beta negamax with quiescence at
depth 0, check extension, null-move pruning, PV/killer/history ordering,
late-move reduction and principal-variation re-searches.  The returned
triple is (score, PV out-parameter, scratch).  Fuel as in `quiescence`. -/
def negamax : Nat → Int → Int → Board → List Move → Nat → Nat → SearchSt →
    Int × List Move × SearchSt
  | 0, alpha, beta, b, pvIn, depth, ply, st =>
    if depth = 0 then
      let q := quiescence 0 alpha beta b ply st
      (q.fst, [], q.snd)
    else (evaluatePosition b, pvIn, st)
  | fuel + 1, alpha, beta, b, pvIn, depth, ply, st =>
    if depth = 0 then
      let q := quiescence (fuel + 1) alpha beta b ply st
      (q.fst, [], q.snd)
    else if maxPly ≤ ply then (evaluatePosition b, pvIn, st)
    else
      let isChk := isCheck b
      let extension := if isChk then 1 else 0
      let moves := generateMoves b
      let st := { st with nodes := st.nodes + 1 }
      let prelim : (Int × List Move × SearchSt) ⊕ (List Move × SearchSt) :=
        if canPrune isChk depth ply pvIn.length then
          let r := negamax fuel (-beta) (-beta + 1) (makeNullMove b) [] (depth - 3) (ply + 1) st
          if beta ≤ -r.fst then Sum.inl (beta, pvIn, r.2.2)
          else Sum.inr (r.2.1, r.2.2)
        else Sum.inr ([], st)
      match prelim with
      | Sum.inl res => res
      | Sum.inr ls =>
        let sorted := sortMoves moves ply pvIn ls.snd
        nmLoop (negamax fuel) beta b depth ply isChk extension sorted 0 alpha ls.fst pvIn
          ls.snd 0 false

/-- `Search::search` (search.cpp): reset the scratch, then iterative
deepening `1..depth`; the result is the last iteration's score and
`line.moves[0]` as best move. -/
def search (b : Board) (depth : Nat) : Int × Move :=
  let init : Int × List Move × SearchSt := (0, [], initSearchSt)
  let r := (List.range depth).foldl
    (fun acc i =>
      negamax maxPly negativeInfinity positiveInfinity b acc.2.1 (i + 1) 0 acc.2.2) init
  (r.fst, r.2.1.getD 0 Move.null)

/-! ### The heuristic-free reference search (spec §8)

The spec's search property compares against "a reference that disables
null-move, LMR, PVS, killers, history": plain fail-hard alpha-beta with the
same quiescence, check extension, ply cap and mate scores, searching the
generated moves unsorted with a full window. -/

/-- Capture loop of the reference quiescence. -/
def refQLoop (qf : Int → Int → Board → Nat → Int) (beta : Int) (b : Board) (ply : Nat) :
    List Move → Int → Int
  | [], alpha => alpha
  | m :: rest, alpha =>
    if !m.isCapture then refQLoop qf beta b ply rest alpha
    else
      let r := makeMove b m
      if !r.fst then refQLoop qf beta b ply rest alpha
      else
        let score := -qf (-beta) (-alpha) r.snd (ply + 1)
        if beta ≤ score then beta
        else if alpha < score then refQLoop qf beta b ply rest score
        else refQLoop qf beta b ply rest alpha

/-- Reference quiescence: as `Search::quiescence` without move ordering. -/
def refQuiescence : Nat → Int → Int → Board → Nat → Int
  | 0, _alpha, _beta, b, _ply => evaluatePosition b
  | fuel + 1, alpha, beta, b, ply =>
    let evaluation := evaluatePosition b
    if maxPly ≤ ply then evaluation
    else if beta ≤ evaluation then beta
    else
      let alpha := if alpha < evaluation then evaluation else alpha
      refQLoop (refQuiescence fuel) beta b ply (generateMoves b) alpha

/-- Move loop of the reference negamax: every legal move searched with the
full window. -/
def refLoop (nf : Int → Int → Board → Nat → Nat → Int) (beta : Int) (b : Board)
    (depth ply : Nat) (isChk : Bool) (extension : Nat) :
    List Move → Int → Bool → Int
  | [], alpha, hasLegal =>
    if hasLegal then alpha
    else if isChk then negativeInfinity + (ply : Int)
    else 0
  | m :: rest, alpha, hasLegal =>
    let r := makeMove b m
    if !r.fst then refLoop nf beta b depth ply isChk extension rest alpha hasLegal
    else
      let score := -nf (-beta) (-alpha) r.snd (depth - 1 + extension) (ply + 1)
      if beta ≤ score then beta
      else if alpha < score then refLoop nf beta b depth ply isChk extension rest score true
      else refLoop nf beta b depth ply isChk extension rest alpha true

/-- The reference negamax: fixed-depth fail-hard alpha-beta with quiescence,
check extension and mate scores, all ordering and pruning heuristics
disabled. -/
def refNegamax : Nat → Int → Int → Board → Nat → Nat → Int
  | 0, alpha, beta, b, depth, ply =>
    if depth = 0 then refQuiescence 0 alpha beta b ply else evaluatePosition b
  | fuel + 1, alpha, beta, b, depth, ply =>
    if depth = 0 then refQuiescence (fuel + 1) alpha beta b ply
    else if maxPly ≤ ply then evaluatePosition b
    else
      let isChk := isCheck b
      let extension := if isChk then 1 else 0
      refLoop (refNegamax fuel) beta b depth ply isChk extension (generateMoves b) alpha false

/-- The reference search score at fixed depth (iterative deepening without
ordering state is depth-wise independent, so the final iteration is the
fixed-depth call itself). -/
def refSearch (b : Board) (depth : Nat) : Int :=
  refNegamax maxPly negativeInfinity positiveInfinity b depth 0

/-! ### The magic-indexed slider tables (`pregenerated_moves.h`, `initSlider`)

`initSlider` fills, for each square, a table over `2^relevantBits` slots:
for every blocker subset of the square's relevant mask it writes the
on-the-fly attack set at the subset's magic index.  The magic constants of
`magic.h` are not among the provided sources; per the spec (§9) they are
perfect hashes on each square's blocker subsets, which is carried below as
an explicit hypothesis (`indexCover`). -/

/-- The magic index `(occupancy * magic) >> (64 - relevantBits)` computed on
`uint64_t` (`initSlider` and `get{Bishop,Rook}Attacks`). -/
def magicIndexFn (magic bits occ : Nat) : Nat :=
  ((occ * magic) &&& UINT64_MASK) >>> (64 - bits)

/-- The table of `initSlider` for one square after the first `n` subset
indices have been written (ascending, as in the source loop); unwritten
slots are zero-initialised. -/
def sliderTableAux (otf : Nat → Nat → Nat) (sq mask magic bits : Nat) : Nat → Nat → Nat
  | 0 => fun _ => 0
  | n + 1 =>
    let t := sliderTableAux otf sq mask magic bits n
    let occ := generateOccupancyMask n mask
    updFn t (magicIndexFn magic bits occ) (otf sq occ)

/-- The completed per-square table of `initSlider`. -/
def sliderTable (otf : Nat → Nat → Nat) (sq mask magic bits : Nat) : Nat → Nat :=
  sliderTableAux otf sq mask magic bits (2 ^ bits)

/-- The lookup of `get{Bishop,Rook}Attacks` (pregenerated_moves.h): mask the
occupancy with the relevant mask, multiply by the magic, shift, index. -/
def sliderLookup (otf : Nat → Nat → Nat) (sq mask magic bits occ : Nat) : Nat :=
  sliderTable otf sq mask magic bits (magicIndexFn magic bits (occ &&& mask))

/-- The bitwise-or of `2^magicIndex` over all blocker subsets of a mask:
covering all `2^bits` slots (value `2^(2^bits) - 1`) states that the magic
is a perfect hash for that square, the property the spec requires of the
constants in `magic.h`. -/
def indexCover (mask magic bits : Nat) : Nat :=
  (List.range (2 ^ bits)).foldl
    (fun acc i => acc ||| (1 <<< magicIndexFn magic bits (generateOccupancyMask i mask))) 0

/-! ### Concrete positions and moves used by the claims -/

/-- A castling-flagged move with a non-castling target (e2e4): exercises the
`default: return false` branch of the castling `switch` in `makeMove`. -/
def c1Move : Move := Move.mk8 52 36 0 12 false false false true

/-- The double pawn push e2e4 as the generator emits it. -/
def e2e4 : Move := Move.mk8 52 36 0 12 false true false false

/-- White Ra1 and Ke1, Black Ra8 and Ke8, long castling rights on both
sides; the a-file is open. -/
def c2Board : Board := boardOfPieces [(3, 56), (5, 60), (9, 0), (11, 4)] 0 10 64

/-- The rook capture a1×a8, touching the corners a1 and a8 at once. -/
def c2Move : Move := Move.mk8 56 0 3 12 true false false false

/-- White Ke1 and Ra1 with the long castling right; a black knight on a3
attacks b1 — and nothing else on the c1/d1/e1 path. -/
def c3Board : Board := boardOfPieces [(5, 60), (3, 56), (7, 40), (11, 4)] 0 2 64

/-- White's queenside castling move e1c1. -/
def whiteLongCastleMove : Move := Move.mk8 60 58 5 12 false false false true

/-- Perft position 4 (tests/perft.cpp):
`r3k2r/Pppp1ppp/1b3nbN/nP6/BBP1P3/q4N2/Pp1P2PP/R2Q1RK1 w kq - 0 1`. -/
def c4Position : Board :=
  boardOfPieces
    [(9, 0), (11, 4), (9, 7),
     (0, 8), (6, 9), (6, 10), (6, 11), (6, 13), (6, 14), (6, 15),
     (8, 17), (7, 21), (8, 22), (1, 23),
     (7, 24), (0, 25),
     (2, 32), (2, 33), (0, 34), (0, 36),
     (10, 40), (1, 45),
     (0, 48), (6, 49), (0, 51), (0, 54), (0, 55),
     (3, 56), (4, 59), (3, 61), (5, 62)]
    0 12 64

/-- Black pawn on b2 about to promote; kings on h8 and h1. -/
def c9Board : Board := boardOfPieces [(6, 49), (11, 7), (5, 63)] 1 0 64

/-- The black promotion push b2b1 with the queen constant the generator
uses (`WhiteQueen`, index 4). -/
def c9Move : Move := Move.mk8 49 57 6 4 false false false false

/-- White Qa1 and Kg6 against the bare black king on h8: White to move has
the mate in one Qa1-a8. -/
def mateInOneBoard : Board := boardOfPieces [(11, 7), (5, 22), (4, 56)] 0 0 64

/-- The mating move a1a8. -/
def mateInOneMove : Move := Move.mk8 56 0 4 12 false false false false

/-- The two bare kings (e1, e8), White to move. -/
def kkBoard : Board := boardOfPieces [(5, 60), (11, 4)] 0 0 64

/-- A magic multiplier that perfectly hashes the 32 blocker subsets of the
bishop mask of b7 (square 9). -/
def c7BishopMagic : Nat := 4523400301183488

/-- A magic multiplier that perfectly hashes the 1024 blocker subsets of
the rook mask of b7 (square 9). -/
def c7RookMagic : Nat := 9227312830414455044

/-- Black's queenside castling move e8c8. -/
def blackLongCastleMove : Move := Move.mk8 4 2 11 12 false false false true

/-- The condition under which the source emits White's long castle: right
present, b1/c1/d1 empty, and b1, c1, d1, e1 all unattacked by Black. -/
def whiteLongCastleCond (b : Board) : Prop :=
  b.castlingRights &&& 2 ≠ 0 ∧
  getBit (b.occ 2) 57 = 0 ∧ getBit (b.occ 2) 58 = 0 ∧ getBit (b.occ 2) 59 = 0 ∧
  isSquareAttacked b 57 1 = false ∧ isSquareAttacked b 58 1 = false ∧
  isSquareAttacked b 59 1 = false ∧ isSquareAttacked b 60 1 = false

/-- The condition under which the source emits Black's long castle. -/
def blackLongCastleCond (b : Board) : Prop :=
  b.castlingRights &&& 8 ≠ 0 ∧
  getBit (b.occ 2) 1 = 0 ∧ getBit (b.occ 2) 2 = 0 ∧ getBit (b.occ 2) 3 = 0 ∧
  isSquareAttacked b 1 0 = false ∧ isSquareAttacked b 2 0 = false ∧
  isSquareAttacked b 3 0 = false ∧ isSquareAttacked b 4 0 = false

/-- White Ke1 and Ra1 with the long right and no attacker anywhere. -/
def c3WitnessBoard : Board := boardOfPieces [(5, 60), (3, 56), (11, 4)] 0 2 64

/-- The final self-check condition of `Board::makeMove`: after the move is
applied and the side toggled, the king of the side that just moved is
attacked by the new side to move. -/
def moverKingAttacked (b : Board) (m : Move) : Bool :=
  let nb := applyMove b m
  let king := if nb.sideToMove = 0 then 11 else 5
  isSquareAttacked nb (getSquareOfLeastSignificantBitIndex (nb.pieceBB king)) nb.sideToMove

/-- Iterate the `getSquareOfLeastSignificantBitIndex` / `clearBit` mask
consumption of `generateOccupancyMask` for `fuel` steps; reaching `0`
states that `fuel` steps exhaust the mask (which `initSlider` guarantees by
using `getNumberOfBitsSet` of the mask as the loop bound). -/
def maskStrip : Nat → Nat → Nat
  | 0, m => m
  | fuel + 1, m => maskStrip fuel (clearBit m (getSquareOfLeastSignificantBitIndex m))

/-- The bitwise-or of `indexCover` computed over the subset indices
`start..start+cnt-1` (a segment of the `initSlider` loop). -/
def coverFrom (mask magic bits start cnt : Nat) : Nat :=
  (List.range cnt).foldl
    (fun a j => a ||| (1 <<< magicIndexFn magic bits (generateOccupancyMask (start + j) mask))) 0

/-- The same or, computed by halving the segment (`fuel` bounds the
recursion depth); a balanced recomputation of `indexCover` whose evaluation
recurses only logarithmically deep. -/
def coverTreeAux (mask magic bits : Nat) : Nat → Nat → Nat → Nat
  | 0, start, cnt =>
    if cnt = 1 then 1 <<< magicIndexFn magic bits (generateOccupancyMask start mask) else 0
  | fuel + 1, start, cnt =>
    if cnt = 0 then 0
    else if cnt = 1 then 1 <<< magicIndexFn magic bits (generateOccupancyMask start mask)
    else
      coverTreeAux mask magic bits fuel start (cnt / 2) |||
      coverTreeAux mask magic bits fuel (start + cnt / 2) (cnt - cnt / 2)

/-- A mated position: the side to move has no legal move (every generated
move is refused by `makeMove`) and its king is in check. -/
def matedBoard (b : Board) : Prop :=
  (∀ m ∈ generateMoves b, (makeMove b m).fst = false) ∧ isCheck b = true

/-- A mate-in-one move: generated, accepted by `makeMove`, and leaving the
opponent mated. -/
def isMatingMove (b : Board) (m : Move) : Prop :=
  m ∈ generateMoves b ∧ (makeMove b m).fst = true ∧ matedBoard (makeMove b m).snd

/-- The side to move has a mate in one. -/
def mateInOne (b : Board) : Prop := ∃ m ∈ generateMoves b, isMatingMove b m

instance (b : Board) : Decidable (matedBoard b) := by
  unfold matedBoard
  infer_instance

instance (b : Board) (m : Move) : Decidable (isMatingMove b m) := by
  unfold isMatingMove
  infer_instance

instance (b : Board) : Decidable (mateInOne b) := by
  unfold mateInOne
  infer_instance

/-! ## Theorems -/

theorem makeMove_eq_of_validCastle (b : Board) (m : Move)
    (h : ¬(m.isCastling = true ∧ castleTargetValid m.target = false)) :
    makeMove b m =
      if moverKingAttacked b m then (false, b) else (true, applyMove b m) := by
  simp only [makeMove, moverKingAttacked]
  rw [if_neg h]

theorem makeMove_true_snd (b : Board) (m : Move) (h : (makeMove b m).fst = true) :
    (makeMove b m).snd = applyMove b m := by
  by_cases hc : m.isCastling = true ∧ castleTargetValid m.target = false
  · simp only [makeMove, if_pos hc] at h
    exact Bool.noConfusion h
  · rw [makeMove_eq_of_validCastle b m hc] at h ⊢
    by_cases ha : moverKingAttacked b m = true
    · simp [ha] at h
    · simp only [Bool.not_eq_true] at ha
      simp [ha]

/-- C1, corrected.  On every move that is not castling-flagged with an
invalid castling target, `makeMove` returns `false` leaving the board
bitwise unchanged exactly when the applied move leaves the moving side's
king attacked by the opponent, and otherwise returns `true` with the move
applied and the side to move toggled. -/
theorem C1_makeMove_contract (b : Board) (m : Move)
    (h : m.isCastling = true → castleTargetValid m.target = true) :
    ((makeMove b m).fst = false ↔ moverKingAttacked b m = true) ∧
    ((makeMove b m).fst = false → (makeMove b m).snd = b) ∧
    ((makeMove b m).fst = true →
      (makeMove b m).snd = applyMove b m ∧
      (applyMove b m).sideToMove = (if b.sideToMove = 0 then 1 else 0)) := by
  have hc : ¬(m.isCastling = true ∧ castleTargetValid m.target = false) := by
    rintro ⟨h1, h2⟩
    rw [h h1] at h2
    cases h2
  rw [makeMove_eq_of_validCastle b m hc]
  by_cases ha : moverKingAttacked b m = true
  · simp [ha]
  · simp only [Bool.not_eq_true] at ha
    refine ⟨by simp [ha], by simp [ha], fun _ => ⟨by simp [ha], rfl⟩⟩

/-- C1, counterexample to the claim as stated: a castling-flagged move with
target e4 makes `makeMove` return `false` while the board is left changed —
the atomicity clause fails. -/
theorem C1_counterexample :
    (makeMove startpos c1Move).fst = false ∧ (makeMove startpos c1Move).snd ≠ startpos := by
  decide

/-- C1, witness: the contract applied to the double push e2e4 from the
starting position. -/
theorem C1_witness :
    (makeMove startpos e2e4).fst = true ∧
    (makeMove startpos e2e4).snd = applyMove startpos e2e4 := by
  have h := C1_makeMove_contract startpos e2e4 (by decide)
  have ht : (makeMove startpos e2e4).fst = true := by decide
  exact ⟨ht, (h.2.2 ht).1⟩

theorem and_mask_absorb (r M : Nat) : (r &&& M) &&& r = r &&& M := by
  rw [Nat.and_assoc, Nat.and_comm M r, ← Nat.and_assoc, Nat.and_self]

theorem and_chain_zero (r M C : Nat) (h : M &&& C = 0) : (r &&& M) &&& C = 0 := by
  rw [Nat.and_assoc, h, Nat.and_zero]

theorem and_mask_absorb2 (r A B : Nat) : r &&& A &&& B &&& r = r &&& A &&& B := by
  have e : r &&& A &&& B = r &&& (A &&& B) := by rw [Nat.and_assoc]
  rw [e, and_mask_absorb]

theorem and_mask_absorb3 (r A B C : Nat) : r &&& A &&& B &&& C &&& r = r &&& A &&& B &&& C := by
  have e : r &&& A &&& B &&& C = r &&& (A &&& (B &&& C)) := by simp only [Nat.and_assoc]
  rw [e, and_mask_absorb]

theorem and_chain_zero2 (r A B C : Nat) (h : A &&& B &&& C = 0) :
    r &&& A &&& B &&& C = 0 := by
  have e : r &&& A &&& B = r &&& (A &&& B) := by rw [Nat.and_assoc]
  rw [e, Nat.and_assoc, h, Nat.and_zero]

theorem and_chain_zero3 (r A B C D : Nat) (h : A &&& B &&& C &&& D = 0) :
    r &&& A &&& B &&& C &&& D = 0 := by
  have e : r &&& A &&& B &&& C = r &&& (A &&& B &&& C) := by simp only [Nat.and_assoc]
  have e2 : A &&& B &&& C &&& D = (A &&& B &&& C) &&& D := rfl
  rw [e, Nat.and_assoc, ← e2, h, Nat.and_zero]

theorem updatedCastlingRights_spec (m : Move) (r : Nat) :
    (updatedCastlingRights m r &&& r = updatedCastlingRights m r) ∧
    (m.piece = 5 → updatedCastlingRights m r &&& 3 = 0) ∧
    (m.piece = 11 → updatedCastlingRights m r &&& 12 = 0) ∧
    ((m.source = 56 ∨ m.target = 56) → updatedCastlingRights m r &&& 2 = 0) ∧
    (¬(m.source = 56 ∨ m.target = 56) → (m.source = 63 ∨ m.target = 63) →
      updatedCastlingRights m r &&& 1 = 0) ∧
    (¬(m.source = 56 ∨ m.target = 56) → ¬(m.source = 63 ∨ m.target = 63) →
      (m.source = 0 ∨ m.target = 0) → updatedCastlingRights m r &&& 8 = 0) ∧
    (¬(m.source = 56 ∨ m.target = 56) → ¬(m.source = 63 ∨ m.target = 63) →
      ¬(m.source = 0 ∨ m.target = 0) → (m.source = 7 ∨ m.target = 7) →
      updatedCastlingRights m r &&& 4 = 0) := by
  unfold updatedCastlingRights clearRight
  split_ifs with h1 h2 h3 h4 h5 <;>
    refine ⟨?_, ?_, ?_, ?_, ?_, ?_, ?_⟩ <;>
    intros <;>
    first
      | exact Nat.and_self r
      | exact and_mask_absorb r _
      | exact and_mask_absorb2 r _ _
      | exact and_mask_absorb3 r _ _ _
      | exact and_chain_zero r _ _ (by decide)
      | exact and_chain_zero2 r _ _ _ (by decide)
      | exact and_chain_zero3 r _ _ _ _ (by decide)
      | omega

/-- C2, corrected.  On every accepted `makeMove` the castling rights only
lose bits; a king move clears both rights of the mover's colour; and of the
corner squares a1, h1, a8, h8 touched as source or target, only the *first*
in that order has its right cleared (the update is an `if/else if` chain). -/
theorem C2_castlingRights_update (b : Board) (m : Move)
    (h : (makeMove b m).fst = true) :
    ((makeMove b m).snd.castlingRights &&& b.castlingRights =
      (makeMove b m).snd.castlingRights) ∧
    (m.piece = 5 → (makeMove b m).snd.castlingRights &&& 3 = 0) ∧
    (m.piece = 11 → (makeMove b m).snd.castlingRights &&& 12 = 0) ∧
    ((m.source = 56 ∨ m.target = 56) → (makeMove b m).snd.castlingRights &&& 2 = 0) ∧
    (¬(m.source = 56 ∨ m.target = 56) → (m.source = 63 ∨ m.target = 63) →
      (makeMove b m).snd.castlingRights &&& 1 = 0) ∧
    (¬(m.source = 56 ∨ m.target = 56) → ¬(m.source = 63 ∨ m.target = 63) →
      (m.source = 0 ∨ m.target = 0) → (makeMove b m).snd.castlingRights &&& 8 = 0) ∧
    (¬(m.source = 56 ∨ m.target = 56) → ¬(m.source = 63 ∨ m.target = 63) →
      ¬(m.source = 0 ∨ m.target = 0) → (m.source = 7 ∨ m.target = 7) →
      (makeMove b m).snd.castlingRights &&& 4 = 0) := by
  have e : (makeMove b m).snd.castlingRights = updatedCastlingRights m b.castlingRights := by
    rw [makeMove_true_snd b m h]
    rfl
  rw [e]
  exact updatedCastlingRights_spec m b.castlingRights

/-- C2, counterexample to the claim as stated: the rook capture a1×a8 is
accepted, yet Black's long-castling right (bit 8) survives although a8 is
the move's target. -/
theorem C2_counterexample :
    (makeMove c2Board c2Move).fst = true ∧
    (makeMove c2Board c2Move).snd.castlingRights &&& 8 ≠ 0 := by decide


theorem mem_generatePieceMoves (b : Board) (piece : Nat) (m : Move)
    (h : m ∈ generatePieceMoves b piece) :
    m.piece = piece ∧ m.capturedPiece = 0 ∧ m.promotedPiece = 12 ∧
    m.isCastling = false ∧ m.isPawnDoublePush = false ∧ m.isEnPassant = false := by
  unfold generatePieceMoves at h
  by_cases hp : piece = 0 ∨ piece = 6
  · rw [if_pos hp] at h
    simp at h
  · rw [if_neg hp] at h
    dsimp only at h
    simp only [List.mem_flatMap, List.mem_map] at h
    obtain ⟨src, _, tgt, _, he⟩ := h
    split_ifs at he <;> subst he <;> exact ⟨rfl, rfl, rfl, rfl, rfl, rfl⟩

theorem mem_pawnMovesFrom (b : Board) (piece source : Nat) (m : Move)
    (h : m ∈ pawnMovesFrom b piece source) :
    m.piece = piece ∧ m.capturedPiece = 0 ∧ m.isCastling = false ∧ m.source = source ∧
    (m.promotedPiece = 12 ∨ m.promotedPiece = 1 ∨ m.promotedPiece = 2 ∨
      m.promotedPiece = 3 ∨ m.promotedPiece = 4) ∧
    (m.promotedPiece ≠ 12 → m.isEnPassant = false ∧ m.isPawnDoublePush = false) ∧
    (m.isPawnDoublePush = true →
      m.promotedPiece = 12 ∧
      ((piece = 0 ∧ 48 ≤ source ∧ source ≤ 55 ∧ m.target = source - 8 - 8) ∨
       (¬piece = 0 ∧ 8 ≤ source ∧ source ≤ 15 ∧ m.target = source + 8 + 8))) := by
  unfold pawnMovesFrom at h
  dsimp only at h
  rw [List.mem_append, List.mem_append] at h
  rcases h with (hPush | hCap) | hEp
  · by_cases hocc : getBit (b.occ 2) (if piece = 0 then source - 8 else source + 8) = 0
    · rw [if_pos hocc] at hPush
      by_cases hpr : (piece = 0 ∧ 8 ≤ source ∧ source ≤ 15) ∨
          (¬piece = 0 ∧ 48 ≤ source ∧ source ≤ 55)
      · rw [if_pos hpr] at hPush
        simp only [List.mem_cons, List.not_mem_nil, or_false] at hPush
        rcases hPush with he | he | he | he <;> subst he <;>
          exact ⟨rfl, rfl, rfl, rfl, by simp [Move.mk8], fun _ => ⟨rfl, rfl⟩,
            fun hx => Bool.noConfusion hx⟩
      · rw [if_neg hpr] at hPush
        rcases List.mem_cons.mp hPush with he | hdp
        · subst he
          exact ⟨rfl, rfl, rfl, rfl, Or.inl rfl, fun hx => absurd rfl hx,
            fun hx => Bool.noConfusion hx⟩
        · by_cases hd : (piece = 0 ∧ 48 ≤ source ∧ source ≤ 55) ∨
              (¬piece = 0 ∧ 8 ≤ source ∧ source ≤ 15)
          · rw [if_pos hd] at hdp
            by_cases hocc2 : getBit (b.occ 2)
                (if piece = 0 then (if piece = 0 then source - 8 else source + 8) - 8
                 else (if piece = 0 then source - 8 else source + 8) + 8) = 0
            · rw [if_pos hocc2] at hdp
              have he := List.mem_singleton.mp hdp
              subst he
              refine ⟨rfl, rfl, rfl, rfl, Or.inl rfl, fun hx => absurd rfl hx, fun _ => ⟨rfl, ?_⟩⟩
              rcases hd with ⟨h0, hA, hB⟩ | ⟨h0, hA, hB⟩
              · exact Or.inl ⟨h0, hA, hB, by simp [Move.mk8, h0]⟩
              · exact Or.inr ⟨h0, hA, hB, by simp [Move.mk8, h0]⟩
            · rw [if_neg hocc2] at hdp
              exact absurd hdp (List.not_mem_nil m)
          · rw [if_neg hd] at hdp
            exact absurd hdp (List.not_mem_nil m)
    · rw [if_neg hocc] at hPush
      exact absurd hPush (List.not_mem_nil m)
  · simp only [List.mem_flatMap] at hCap
    obtain ⟨tgt, _, hCap⟩ := hCap
    split_ifs at hCap <;>
      simp only [List.mem_cons, List.not_mem_nil, or_false] at hCap
    · rcases hCap with he | he | he | he <;> subst he <;>
        exact ⟨rfl, rfl, rfl, rfl, by simp [Move.mk8], fun _ => ⟨rfl, rfl⟩,
          fun hx => Bool.noConfusion hx⟩
    · subst hCap
      exact ⟨rfl, rfl, rfl, rfl, Or.inl rfl, fun hx => absurd rfl hx,
        fun hx => Bool.noConfusion hx⟩
  · split_ifs at hEp <;> simp only [List.mem_singleton, List.not_mem_nil] at hEp
    all_goals
      first
      | exact absurd hEp (fun hx => hx)
      | (subst hEp
         exact ⟨rfl, rfl, rfl, rfl, Or.inl rfl, fun hx => absurd rfl hx,
           fun hx => Bool.noConfusion hx⟩)

/-- C2, witness: the update contract applied to the accepted capture a1×a8
on the two-rook board. -/
theorem C2_witness :
    (makeMove c2Board c2Move).snd.castlingRights &&& c2Board.castlingRights =
      (makeMove c2Board c2Move).snd.castlingRights ∧
    (makeMove c2Board c2Move).snd.castlingRights &&& 2 = 0 := by
  have h := C2_castlingRights_update c2Board c2Move (by decide)
  exact ⟨h.1, h.2.2.2.1 (Or.inl (by decide))⟩





theorem mem_generateMoves_cases (b : Board) (m : Move) (h : m ∈ generateMoves b) :
    ∃ piece, piece ∈ List.range' (if b.sideToMove = 0 then 0 else 6) 6 ∧
      (((piece = 0 ∨ piece = 6) ∧ m ∈ generatePawnMoves b piece) ∨
       m ∈ generatePieceMoves b piece ∨
       ((piece = 5 ∨ piece = 11) ∧ m ∈ generateKingCastlingMoves b piece)) := by
  unfold generateMoves at h
  dsimp only at h
  simp only [List.mem_flatMap, List.mem_append] at h
  obtain ⟨p, hp, hmem⟩ := h
  refine ⟨p, hp, ?_⟩
  rcases hmem with (hm | hm) | hm
  · split_ifs at hm with hc
    · exact Or.inl ⟨hc, hm⟩
    · simp at hm
  · exact Or.inr (Or.inl hm)
  · split_ifs at hm with hc
    · exact Or.inr (Or.inr ⟨hc, hm⟩)
    · simp at hm

theorem mem_castleW (b : Board) (m : Move) (h : m ∈ generateKingCastlingMoves b 5) :
    (m = Move.mk8 60 62 5 12 false false false true) ∨
    (m = Move.mk8 60 58 5 12 false false false true ∧ whiteLongCastleCond b) := by
  unfold generateKingCastlingMoves at h
  rw [if_pos rfl] at h
  rcases List.mem_append.mp h with hm | hm
  · split_ifs at hm with hc
    · exact Or.inl (List.mem_singleton.mp hm)
    · simp at hm
  · split_ifs at hm with hc
    · refine Or.inr ⟨List.mem_singleton.mp hm, ?_⟩
      obtain ⟨h1, h2, h3, h4, h5, h6, h7, h8⟩ := hc
      exact ⟨h1, h2, h3, h4, by simpa using h5, by simpa using h6,
        by simpa using h7, by simpa using h8⟩
    · simp at hm

theorem mem_castleB (b : Board) (m : Move) (h : m ∈ generateKingCastlingMoves b 11) :
    (m = Move.mk8 4 6 11 12 false false false true) ∨
    (m = Move.mk8 4 2 11 12 false false false true ∧ blackLongCastleCond b) := by
  unfold generateKingCastlingMoves at h
  rw [if_neg (by decide), if_pos rfl] at h
  rcases List.mem_append.mp h with hm | hm
  · split_ifs at hm with hc
    · exact Or.inl (List.mem_singleton.mp hm)
    · simp at hm
  · split_ifs at hm with hc
    · refine Or.inr ⟨List.mem_singleton.mp hm, ?_⟩
      obtain ⟨h1, h2, h3, h4, h5, h6, h7, h8⟩ := hc
      exact ⟨h1, h2, h3, h4, by simpa using h5, by simpa using h6,
        by simpa using h7, by simpa using h8⟩
    · simp at hm

theorem castleW_long_mem (b : Board) (hc : whiteLongCastleCond b) :
    Move.mk8 60 58 5 12 false false false true ∈ generateKingCastlingMoves b 5 := by
  unfold generateKingCastlingMoves
  rw [if_pos rfl]
  refine List.mem_append.mpr (Or.inr ?_)
  obtain ⟨h1, h2, h3, h4, h5, h6, h7, h8⟩ := hc
  rw [if_pos ⟨h1, h2, h3, h4, by simp [h5], by simp [h6], by simp [h7], by simp [h8]⟩]
  exact List.mem_singleton.mpr rfl

theorem castleB_long_mem (b : Board) (hc : blackLongCastleCond b) :
    Move.mk8 4 2 11 12 false false false true ∈ generateKingCastlingMoves b 11 := by
  unfold generateKingCastlingMoves
  rw [if_neg (by decide), if_pos rfl]
  refine List.mem_append.mpr (Or.inr ?_)
  obtain ⟨h1, h2, h3, h4, h5, h6, h7, h8⟩ := hc
  rw [if_pos ⟨h1, h2, h3, h4, by simp [h5], by simp [h6], by simp [h7], by simp [h8]⟩]
  exact List.mem_singleton.mpr rfl


theorem mem_generatePawnMoves_from (b : Board) (piece : Nat) (m : Move)
    (h : m ∈ generatePawnMoves b piece) : ∃ src, m ∈ pawnMovesFrom b piece src := by
  unfold generatePawnMoves at h
  simp only [List.mem_flatMap] at h
  obtain ⟨src, _, hm⟩ := h
  exact ⟨src, hm⟩

/-- C3, corrected.  The queenside castling move is emitted for the side to
move iff the right is present, the between squares are empty, and — beyond
the claim's list — *also* the square next to the rook (b1/b8) is unattacked,
in addition to c1/d1/e1 (c8/d8/e8). -/
theorem C3_long_castle_generation (b : Board) :
    (b.sideToMove = 0 →
      (whiteLongCastleMove ∈ generateMoves b ↔ whiteLongCastleCond b)) ∧
    (b.sideToMove = 1 →
      (blackLongCastleMove ∈ generateMoves b ↔ blackLongCastleCond b)) := by
  constructor
  · intro hside
    constructor
    · intro h
      obtain ⟨piece, hp, hcase⟩ := mem_generateMoves_cases b _ h
      rw [hside] at hp
      rcases hcase with ⟨hc, hm⟩ | hm | ⟨hc, hm⟩
      · obtain ⟨src, hm⟩ := mem_generatePawnMoves_from b piece _ hm
        have h5 : (5 : Nat) = piece := by
          simpa [whiteLongCastleMove, Move.mk8] using (mem_pawnMovesFrom b piece src _ hm).1
        rcases hc with h0 | h0 <;> omega
      · have := (mem_generatePieceMoves b piece _ hm).2.2.2.1
        simp [whiteLongCastleMove, Move.mk8] at this
      · rcases hc with h5 | h11
        · subst h5
          rcases mem_castleW b _ hm with he | ⟨_, hcond⟩
          · exact absurd he (by decide)
          · exact hcond
        · subst h11
          simp at hp
    · intro hc
      unfold generateMoves
      rw [hside]
      dsimp only
      refine List.mem_flatMap.mpr ⟨5, by decide, ?_⟩
      refine List.mem_append.mpr (Or.inr (List.mem_append.mpr (Or.inr ?_)))
      obtain ⟨h1, h2, h3, h4, h5, h6, h7, h8⟩ := hc
      rw [if_pos ⟨h1, h2, h3, h4, by simp [h5], by simp [h6], by simp [h7], by simp [h8]⟩]
      exact List.mem_singleton.mpr rfl
  · intro hside
    constructor
    · intro h
      obtain ⟨piece, hp, hcase⟩ := mem_generateMoves_cases b _ h
      rw [hside] at hp
      simp only [if_neg (by omega : ¬(1 : Nat) = 0)] at hp
      rcases hcase with ⟨hc, hm⟩ | hm | ⟨hc, hm⟩
      · obtain ⟨src, hm⟩ := mem_generatePawnMoves_from b piece _ hm
        have h5 : (11 : Nat) = piece := by
          simpa [blackLongCastleMove, Move.mk8] using (mem_pawnMovesFrom b piece src _ hm).1
        rcases hc with h0 | h0 <;> omega
      · have := (mem_generatePieceMoves b piece _ hm).2.2.2.1
        simp [blackLongCastleMove, Move.mk8] at this
      · rcases hc with h5 | h11
        · subst h5
          simp at hp
        · subst h11
          rcases mem_castleB b _ hm with he | ⟨_, hcond⟩
          · exact absurd he (by decide)
          · exact hcond
    · intro hc
      unfold generateMoves
      rw [hside]
      dsimp only
      refine List.mem_flatMap.mpr ⟨11, by decide, ?_⟩
      refine List.mem_append.mpr (Or.inr (List.mem_append.mpr (Or.inr ?_)))
      obtain ⟨h1, h2, h3, h4, h5, h6, h7, h8⟩ := hc
      rw [if_pos ⟨h1, h2, h3, h4, by simp [h5], by simp [h6], by simp [h7], by simp [h8]⟩]
      exact List.mem_singleton.mpr rfl

/-- C3, counterexample to the claim as stated: with a black knight on a3
attacking only b1, all three conditions of the claim hold, yet e1c1 is not
generated. -/
theorem C3_counterexample :
    c3Board.sideToMove = 0 ∧
    c3Board.castlingRights &&& 2 ≠ 0 ∧
    getBit (c3Board.occ 2) 57 = 0 ∧ getBit (c3Board.occ 2) 58 = 0 ∧
    getBit (c3Board.occ 2) 59 = 0 ∧
    isSquareAttacked c3Board 60 1 = false ∧ isSquareAttacked c3Board 59 1 = false ∧
    isSquareAttacked c3Board 58 1 = false ∧
    whiteLongCastleMove ∉ generateMoves c3Board := by decide

/-- C3, witness: on an unobstructed, unattacked castling-ready board the
characterisation produces the castling move. -/
theorem C3_witness :
    whiteLongCastleMove ∈ generateMoves c3WitnessBoard :=
  ((C3_long_castle_generation c3WitnessBoard).1 rfl).mpr
    (by unfold whiteLongCastleCond; decide)

end ChessEngine

namespace ChessEngine

theorem doublePush_shape (b : Board) (m : Move) (hm : m ∈ generateMoves b)
    (hdp : m.isPawnDoublePush = true) :
    m.promotedPiece = 12 ∧
    (b.sideToMove = 0 → m.piece = 0 ∧ 48 ≤ m.source ∧ m.source ≤ 55 ∧ m.target = m.source - 16) ∧
    (b.sideToMove ≠ 0 → m.piece = 6 ∧ 8 ≤ m.source ∧ m.source ≤ 15 ∧ m.target = m.source + 16) := by
  obtain ⟨piece, hp, hcase⟩ := mem_generateMoves_cases b m hm
  rcases hcase with ⟨hc, hmem⟩ | hmem | ⟨hc, hmem⟩
  · obtain ⟨src, hmem⟩ := mem_generatePawnMoves_from b piece m hmem
    obtain ⟨hpc, _, _, hsrc, _, _, hdpc⟩ := mem_pawnMovesFrom b piece src m hmem
    obtain ⟨hpromo, hgeom⟩ := hdpc hdp
    refine ⟨hpromo, ?_, ?_⟩
    · intro hside
      rw [if_pos hside] at hp
      simp only [List.mem_range'_1] at hp
      rcases hgeom with ⟨h0, hA, hB, hT⟩ | ⟨h0, hA, hB, hT⟩
      · subst hsrc
        exact ⟨by omega, by omega, by omega, by omega⟩
      · omega
    · intro hside
      rw [if_neg hside] at hp
      simp only [List.mem_range'_1] at hp
      rcases hgeom with ⟨h0, hA, hB, hT⟩ | ⟨h0, hA, hB, hT⟩
      · omega
      · subst hsrc
        exact ⟨by omega, by omega, by omega, by omega⟩
  · have := (mem_generatePieceMoves b piece m hmem).2.2.2.2.1
    rw [hdp] at this
    exact Bool.noConfusion this
  · rcases hc with h5 | h11
    · subst h5
      rcases mem_castleW b m hmem with he | ⟨he, _⟩ <;> subst he <;> exact Bool.noConfusion hdp
    · subst h11
      rcases mem_castleB b m hmem with he | ⟨he, _⟩ <;> subst he <;> exact Bool.noConfusion hdp

/-- C8, confirmed.  After every accepted `makeMove` of a generated move the
en-passant square is `INVALID` (64) unless the move was a pawn double push,
in which case it is the skipped square: `target + 8` in `40..47` after a
White double push, `target - 8` in `16..23` after a Black one. -/
theorem C8_enPassant_invariant (b : Board) (m : Move)
    (hm : m ∈ generateMoves b) (hs : (makeMove b m).fst = true) :
    (m.isPawnDoublePush = false → (makeMove b m).snd.enPassantSquare = 64) ∧
    (m.isPawnDoublePush = true →
      (b.sideToMove = 0 →
        (makeMove b m).snd.enPassantSquare = m.target + 8 ∧
        40 ≤ m.target + 8 ∧ m.target + 8 ≤ 47) ∧
      (b.sideToMove ≠ 0 →
        (makeMove b m).snd.enPassantSquare = m.target - 8 ∧
        16 ≤ m.target - 8 ∧ m.target - 8 ≤ 23)) := by
  have he : (makeMove b m).snd.enPassantSquare = newEnPassantSquare b m := by
    rw [makeMove_true_snd b m hs]
    rfl
  constructor
  · intro hdp
    rw [he]
    unfold newEnPassantSquare
    rw [if_neg (by simp [hdp])]
  · intro hdp
    obtain ⟨_, hw, hb⟩ := doublePush_shape b m hm hdp
    constructor
    · intro hside
      obtain ⟨_, hA, hB, hT⟩ := hw hside
      refine ⟨?_, by omega, by omega⟩
      rw [he]
      unfold newEnPassantSquare
      rw [if_pos (by simp [hdp]), if_pos hside]
    · intro hside
      obtain ⟨_, hA, hB, hT⟩ := hb hside
      refine ⟨?_, by omega, by omega⟩
      rw [he]
      unfold newEnPassantSquare
      rw [if_pos (by simp [hdp]), if_neg hside]

/-- C8, witness: the contract applied to the accepted double push e2e4 from
the starting position. -/
theorem C8_witness :
    (makeMove startpos e2e4).snd.enPassantSquare = e2e4.target + 8 ∧
    40 ≤ e2e4.target + 8 ∧ e2e4.target + 8 ≤ 47 :=
  ((C8_enPassant_invariant startpos e2e4 (by decide) (by decide)).2 rfl).1 rfl

end ChessEngine

namespace ChessEngine

theorem getD_set_self (l : List Nat) (i : Nat) (v : Nat) (h : i < l.length) :
    (l.set i v).getD i 0 = v := by
  simp [List.getD_eq_getElem?_getD, List.getElem?_set_self, h]

theorem getD_set_ne (l : List Nat) (i j v : Nat) (h : i ≠ j) :
    (l.set i v).getD j 0 = l.getD j 0 := by
  simp [List.getD_eq_getElem?_getD, List.getElem?_set_ne h]

theorem getBit_eq_testBit (bb sq : Nat) :
    getBit bb sq = if bb.testBit sq then 1 else 0 := by
  rw [getBit, Nat.and_one_is_mod, Nat.shiftRight_eq_div_pow, Nat.testBit_to_div_mod]
  rcases Nat.mod_two_eq_zero_or_one (bb / 2 ^ sq) with h | h <;> simp [h]

theorem getBit_setBit_self (x t : Nat) : getBit (setBit x t) t = 1 := by
  rw [setBit, getBit_eq_testBit]
  simp [Nat.testBit_or, Nat.testBit_shiftLeft]

theorem testBit_uint64Mask (t : Nat) :
    Nat.testBit 18446744073709551615 t = decide (t < 64) := by
  rw [show (18446744073709551615 : Nat) = 2 ^ 64 - 1 by norm_num, Nat.testBit_two_pow_sub_one]

theorem getBit_clearBit_self (x t : Nat) (h : t < 64) : getBit (clearBit x t) t = 0 := by
  rw [clearBit, getBit_eq_testBit]
  simp [Nat.testBit_and, Nat.testBit_xor, Nat.testBit_shiftLeft, UINT64_MASK,
    testBit_uint64Mask, h]

end ChessEngine

namespace ChessEngine

theorem squaresOf_zero : squaresOf 0 = [] := rfl

theorem ctzAux_lt (fuel : Nat) : ∀ bb, bb ≠ 0 → bb < 2 ^ fuel → ctzAux fuel bb < fuel := by
  induction fuel with
  | zero => intro bb h hlt; omega
  | succ n ih =>
    intro bb h hlt
    unfold ctzAux
    split_ifs with h1
    · omega
    · have hbb : bb % 2 = 0 := by
        have := Nat.and_one_is_mod bb
        omega
      have hne : bb >>> 1 ≠ 0 := by
        rw [Nat.shiftRight_one]
        intro hx
        omega
      have hlt2 : bb >>> 1 < 2 ^ n := by
        rw [Nat.shiftRight_one]
        rw [Nat.pow_succ] at hlt
        omega
      have := ih (bb >>> 1) hne hlt2
      omega

theorem mem_squaresOfAux_lt (fuel : Nat) :
    ∀ bb sq, bb < 2 ^ 64 → sq ∈ squaresOfAux fuel bb → sq < 64 := by
  induction fuel with
  | zero => intro bb sq _ h; simp [squaresOfAux] at h
  | succ n ih =>
    intro bb sq hlt h
    unfold squaresOfAux at h
    split_ifs at h with h0
    · simp at h
    · rcases List.mem_cons.mp h with he | hmem
      · subst he
        exact ctzAux_lt 64 bb h0 hlt
      · exact ih _ sq (Nat.lt_of_le_of_lt (Nat.and_le_left) hlt) hmem

theorem mem_squaresOf_lt (bb sq : Nat) (hlt : bb < 2 ^ 64) (h : sq ∈ squaresOf bb) :
    sq < 64 := mem_squaresOfAux_lt 64 bb sq hlt h

theorem mem_squaresOf_ne_zero (bb sq : Nat) (h : sq ∈ squaresOf bb) : bb ≠ 0 := by
  intro he
  subst he
  simp [squaresOf_zero] at h

theorem generatePawnAttacks_lt (side sq : Nat) : generatePawnAttacks side sq < 2 ^ 64 := by
  unfold generatePawnAttacks
  split_ifs <;>
    exact Nat.or_lt_two_pow
      (Nat.lt_of_le_of_lt Nat.and_le_right (by norm_num [NOT_A_FILE, NOT_H_FILE]))
      (Nat.lt_of_le_of_lt Nat.and_le_right (by norm_num [NOT_A_FILE, NOT_H_FILE]))

theorem pieceBB_ne_zero_length (b : Board) (i : Nat) (h : b.pieceBB i ≠ 0) :
    i < b.pieces.length := by
  by_contra hc
  exact h (List.getD_eq_default _ _ (by omega))

theorem mem_pawnMovesFrom_promo_target (b : Board) (piece source : Nat) (m : Move)
    (h : m ∈ pawnMovesFrom b piece source) (hp : m.promotedPiece ≠ 12) :
    m.target < 64 := by
  unfold pawnMovesFrom at h
  dsimp only at h
  rw [List.mem_append, List.mem_append] at h
  rcases h with (hPush | hCap) | hEp
  · by_cases hocc : getBit (b.occ 2) (if piece = 0 then source - 8 else source + 8) = 0
    · rw [if_pos hocc] at hPush
      by_cases hpr : (piece = 0 ∧ 8 ≤ source ∧ source ≤ 15) ∨
          (¬piece = 0 ∧ 48 ≤ source ∧ source ≤ 55)
      · rw [if_pos hpr] at hPush
        simp only [List.mem_cons, List.not_mem_nil, or_false] at hPush
        rcases hpr with ⟨h0, hA, hB⟩ | ⟨h0, hA, hB⟩ <;>
          rcases hPush with he | he | he | he <;> subst he <;>
          simp [Move.mk8, h0] <;> omega
      · rw [if_neg hpr] at hPush
        rcases List.mem_cons.mp hPush with he | hdp
        · subst he
          exact absurd rfl hp
        · split_ifs at hdp <;>
            simp only [List.mem_singleton, List.not_mem_nil] at hdp <;>
            (subst hdp; exact absurd rfl hp)
    · rw [if_neg hocc] at hPush
      exact absurd hPush (List.not_mem_nil m)
  · simp only [List.mem_flatMap] at hCap
    obtain ⟨tgt, htgt, hCap⟩ := hCap
    have htlt : tgt < 64 := by
      refine mem_squaresOf_lt _ tgt ?_ htgt
      split_ifs <;>
        exact Nat.lt_of_le_of_lt Nat.and_le_left (generatePawnAttacks_lt _ source)
    split_ifs at hCap <;>
      simp only [List.mem_cons, List.not_mem_nil, or_false] at hCap
    · rcases hCap with he | he | he | he <;> subst he <;> exact htlt
    · subst hCap
      exact absurd rfl hp
  · split_ifs at hEp <;> simp only [List.mem_singleton, List.not_mem_nil] at hEp <;>
      (subst hEp; exact absurd rfl hp)

end ChessEngine

namespace ChessEngine

theorem mem_generatePawnMoves_src (b : Board) (piece : Nat) (m : Move)
    (h : m ∈ generatePawnMoves b piece) :
    ∃ src, src ∈ squaresOf (b.pieceBB piece) ∧ m ∈ pawnMovesFrom b piece src := by
  unfold generatePawnMoves at h
  simp only [List.mem_flatMap] at h
  exact h

theorem captureStep_length (p : List Nat) (m : Move) (base : Nat) :
    (if m.isCapture then
        match (List.range' base 6).find? (fun i => getBit (p.getD i 0) m.target = 1) with
        | some i => p.set i (clearBit (p.getD i 0) m.target)
        | none => p
      else p).length = p.length := by
  split_ifs
  · cases hf : (List.range' base 6).find? (fun i => getBit (p.getD i 0) m.target = 1) with
    | none => rfl
    | some i => exact List.length_set ..
  · rfl

theorem promoStep_bits (q : List Nat) (pr tgt : Nat) (h6 : 6 < q.length)
    (hpr : pr < 6) (htgt : tgt < 64) :
    getBit (((q.set 6 (clearBit (q.getD 6 0) tgt)).set pr
        (setBit (q.getD pr 0) tgt)).getD 6 0) tgt = 0 ∧
    getBit (((q.set 6 (clearBit (q.getD 6 0) tgt)).set pr
        (setBit (q.getD pr 0) tgt)).getD pr 0) tgt = 1 := by
  constructor
  · rw [getD_set_ne _ _ _ _ (by omega)]
    rw [getD_set_self _ _ _ h6]
    exact getBit_clearBit_self _ _ htgt
  · rw [getD_set_self _ _ _ (by rw [List.length_set]; omega)]
    exact getBit_setBit_self _ _

theorem getD_movedPieces_promo (b : Board) (m : Move) (hside : b.sideToMove = 1)
    (hpr : m.promotedPiece ≠ 12) (hep : m.isEnPassant = false)
    (hlen : 6 < b.pieces.length) (hprlt : m.promotedPiece < 6) (htgt : m.target < 64) :
    getBit ((movedPieces b m).getD 6 0) m.target = 0 ∧
    getBit ((movedPieces b m).getD m.promotedPiece 0) m.target = 1 := by
  unfold movedPieces
  dsimp only
  rw [hside]
  rw [if_neg (by simp [hep])]
  rw [if_pos hpr]
  simp only [if_neg (by omega : ¬(1 : Nat) = 0)]
  refine promoStep_bits _ _ _ ?_ hprlt htgt
  rw [captureStep_length, List.length_set, List.length_set]
  exact hlen

end ChessEngine

namespace ChessEngine

/-- C9, confirmed.  When Black is to move, every promotion move emitted by
`generateMoves` carries a promoted piece among the *White* constants
WhiteKnight (1), WhiteBishop (2), WhiteRook (3), WhiteQueen (4) — never a
Black piece — and an accepted `makeMove` on such a move clears the Black
pawn bit at the target and sets the bit of that White piece there, so a
Black promotion places a White piece on the board. -/
theorem C9_black_promotion (b : Board) (m : Move) (hside : b.sideToMove = 1)
    (hm : m ∈ generateMoves b) (hp : m.promotedPiece ≠ 12) :
    (m.promotedPiece = 1 ∨ m.promotedPiece = 2 ∨ m.promotedPiece = 3 ∨
      m.promotedPiece = 4) ∧
    ((makeMove b m).fst = true →
      getBit ((makeMove b m).snd.pieceBB 6) m.target = 0 ∧
      getBit ((makeMove b m).snd.pieceBB m.promotedPiece) m.target = 1) := by
  obtain ⟨piece, hpmem, hcase⟩ := mem_generateMoves_cases b m hm
  rw [hside] at hpmem
  rw [if_neg (by omega : ¬(1 : Nat) = 0)] at hpmem
  have hprange : 6 ≤ piece ∧ piece < 12 := by
    rw [List.mem_range'_1] at hpmem
    omega
  rcases hcase with ⟨hp06, hgen⟩ | hgen | ⟨hp511, hgen⟩
  · have hp6 : piece = 6 := by omega
    subst hp6
    obtain ⟨src, hsrc, hpm⟩ := mem_generatePawnMoves_src b 6 m hgen
    obtain ⟨hpiece, hcap, hcst, hsrcm, hprom, himpl, _⟩ := mem_pawnMovesFrom b 6 src m hpm
    have hpr14 : m.promotedPiece = 1 ∨ m.promotedPiece = 2 ∨ m.promotedPiece = 3 ∨
        m.promotedPiece = 4 := by
      rcases hprom with h | h
      · exact absurd h hp
      · exact h
    refine ⟨hpr14, fun hacc => ?_⟩
    rw [makeMove_true_snd b m hacc]
    have hpieces : (applyMove b m).pieces = movedPieces b m := by
      unfold applyMove
      dsimp only
      rw [if_neg (by simp [hcst])]
    simp only [Board.pieceBB, hpieces]
    refine getD_movedPieces_promo b m hside hp (himpl hp).1 ?_ (by omega) ?_
    · exact pieceBB_ne_zero_length b 6 (mem_squaresOf_ne_zero _ _ hsrc)
    · exact mem_pawnMovesFrom_promo_target b 6 src m hpm hp
  · have := (mem_generatePieceMoves b piece m hgen).2.2.1
    exact absurd this hp
  · have h11 : piece = 11 := by omega
    subst h11
    rcases mem_castleB b m hgen with he | ⟨he, _⟩ <;> (subst he; exact absurd rfl hp)

/-- C9, witness: the black promotion b7b8q on a three-piece board. -/
theorem C9_witness :
    c9Board.sideToMove = 1 ∧ c9Move ∈ generateMoves c9Board ∧
    (c9Move.promotedPiece = 1 ∨ c9Move.promotedPiece = 2 ∨ c9Move.promotedPiece = 3 ∨
      c9Move.promotedPiece = 4) ∧
    getBit ((makeMove c9Board c9Move).snd.pieceBB 6) c9Move.target = 0 ∧
    getBit ((makeMove c9Board c9Move).snd.pieceBB c9Move.promotedPiece) c9Move.target = 1 := by
  have h := C9_black_promotion c9Board c9Move (by decide) (by decide) (by decide)
  exact ⟨by decide, by decide, h.1, h.2 (by decide)⟩

end ChessEngine

namespace ChessEngine

/-- C10, confirmed.  Every move emitted by `generateMoves` has its
captured-piece tag equal to Pawn (0) — the generator always constructs moves
through the constructor that defaults the captured piece — so for every
capture move the MVV-LVA term of `calculateScore` evaluates to
`1000 + 10*0 - (piece % 6)`, independent of which piece is actually
captured. -/
theorem C10_captured_piece (b : Board) (m : Move) (hm : m ∈ generateMoves b) :
    m.capturedPiece = 0 ∧
    (m.isCapture = true → ∀ (ply : Nat) (pv : Bool) (st : SearchSt),
      calculateScore m ply pv st =
        (if pv then 2000 else 0) +
          (1000 + 10 * ((0 : Nat) : Int) - ((m.piece % 6 : Nat) : Int)) +
          (if m.promotedPiece ≠ 12 then 300 + (m.promotedPiece : Int) else 0) +
          (if m.isCastling = true then (200 : Int) else 0)) := by
  have hcap : m.capturedPiece = 0 := by
    obtain ⟨piece, _, hcase⟩ := mem_generateMoves_cases b m hm
    rcases hcase with ⟨hp06, hgen⟩ | hgen | ⟨hp511, hgen⟩
    · obtain ⟨src, hpm⟩ := mem_generatePawnMoves_from b piece m hgen
      exact (mem_pawnMovesFrom b piece src m hpm).2.1
    · exact (mem_generatePieceMoves b piece m hgen).2.1
    · rcases hp511 with h5 | h11
      · subst h5
        rcases mem_castleW b m hgen with he | ⟨he, _⟩ <;> (subst he; rfl)
      · subst h11
        rcases mem_castleB b m hgen with he | ⟨he, _⟩ <;> (subst he; rfl)
  refine ⟨hcap, fun hcapt ply pv st => ?_⟩
  unfold calculateScore
  dsimp only
  simp only [hcapt, hcap, eq_self_iff_true, if_true]
  split_ifs <;> push_cast <;> ring

/-- C10, witness: the capture a1×a8 on the two-rook board, scored at ply 0
outside the PV: 1000 + 0 - (3 % 6) = 997. -/
theorem C10_witness :
    c2Move ∈ generateMoves c2Board ∧ c2Move.capturedPiece = 0 ∧
    calculateScore c2Move 0 false initSearchSt = 997 := by
  have h := C10_captured_piece c2Board c2Move (by decide)
  refine ⟨by decide, h.1, ?_⟩
  rw [h.2 (by decide) 0 false initSearchSt]
  decide

end ChessEngine

namespace ChessEngine

set_option maxRecDepth 10000 in
/-- C4, code_bug.  On the position
r3k2r/Pppp1ppp/1b3nbN/nP6/BBP1P3/q4N2/Pp1P2PP/R2Q1RK1 w kq - 0 1 the
engine's perft yields 6 nodes at depth 1 as claimed, but 258 — not the
claimed 264 — at depth 2: the extra b1/b8-attack test in
`generateKingCastlingMoves` suppresses Black's six replies after each of
the six White first moves in which Black could castle long. -/
theorem C4_perft_divergence :
    perft 1 c4Position = 6 ∧ perft 2 c4Position = 258 ∧ ¬perft 2 c4Position = 264 := by
  have h : perft 2 c4Position = 258 := by decide
  exact ⟨by decide, h, by rw [h]; decide⟩

end ChessEngine

namespace ChessEngine

theorem testBit_one_shl (n k : Nat) : (1 <<< n).testBit k = decide (n = k) := by
  rw [Nat.shiftLeft_eq, one_mul, Nat.testBit_two_pow]

theorem and_one_shl_ne (x i : Nat) : (x &&& (1 <<< i) ≠ 0) ↔ x.testBit i = true := by
  constructor
  · intro h
    by_contra hb
    apply h
    apply Nat.eq_of_testBit_eq
    intro k
    rw [Nat.testBit_and, testBit_one_shl, Nat.zero_testBit]
    by_cases hk : i = k
    · subst hk
      simp only [Bool.not_eq_true] at hb
      simp [hb]
    · simp [hk]
  · intro h he
    have h2 := congrArg (fun z => z.testBit i) he
    simp only [Nat.testBit_and, testBit_one_shl, Nat.zero_testBit, decide_eq_true_eq] at h2
    simp [h] at h2
  
theorem ctzAux_spec (fuel : Nat) : ∀ bb, bb ≠ 0 → bb < 2 ^ fuel →
    bb.testBit (ctzAux fuel bb) = true ∧ ∀ j, j < ctzAux fuel bb → bb.testBit j = false := by
  induction fuel with
  | zero => intro bb h hlt; omega
  | succ n ih =>
    intro bb h hlt
    unfold ctzAux
    split_ifs with h1
    · have hm : bb % 2 = 1 := by
        have := Nat.and_one_is_mod bb
        omega
      exact ⟨by simp [Nat.testBit_zero, hm], fun j hj => by omega⟩
    · have hm : bb % 2 = 0 := by
        have := Nat.and_one_is_mod bb
        omega
      have hne : bb >>> 1 ≠ 0 := by
        rw [Nat.shiftRight_one]
        omega
      have hlt2 : bb >>> 1 < 2 ^ n := by
        rw [Nat.shiftRight_one]
        rw [Nat.pow_succ] at hlt
        omega
      obtain ⟨ha, hz⟩ := ih (bb >>> 1) hne hlt2
      refine ⟨by rw [Nat.testBit_succ]; exact ha, fun j hj => ?_⟩
      cases j with
      | zero => simp [Nat.testBit_zero, hm]
      | succ k =>
        rw [Nat.testBit_succ]
        exact hz k (by omega)

theorem clearBit_testBit (bb t j : Nat) (hb : bb < 2 ^ 64) :
    (clearBit bb t).testBit j = (bb.testBit j && !(decide (t = j))) := by
  by_cases hj : j < 64
  · rw [clearBit, Nat.testBit_and, Nat.testBit_xor, testBit_one_shl]
    rw [show UINT64_MASK = 2 ^ 64 - 1 from rfl, Nat.testBit_two_pow_sub_one]
    cases hb1 : bb.testBit j <;> by_cases ht : t = j <;> simp [ht, hj]
  · have h0 : bb.testBit j = false :=
      Nat.testBit_lt_two_pow
        (Nat.lt_of_lt_of_le hb (Nat.pow_le_pow_right (by norm_num) (by omega)))
    have h1 : clearBit bb t < 2 ^ 64 := Nat.lt_of_le_of_lt (Nat.and_le_left) hb
    have h2 : (clearBit bb t).testBit j = false :=
      Nat.testBit_lt_two_pow
        (Nat.lt_of_lt_of_le h1 (Nat.pow_le_pow_right (by norm_num) (by omega)))
    simp [h0, h2]

theorem setBit_testBit (bb t j : Nat) :
    (setBit bb t).testBit j = (bb.testBit j || decide (t = j)) := by
  rw [setBit, Nat.testBit_or, testBit_one_shl]

theorem maskStrip_zero (fuel : Nat) : maskStrip fuel 0 = 0 := by
  induction fuel with
  | zero => rfl
  | succ n ih =>
    unfold maskStrip
    rw [show clearBit 0 (getSquareOfLeastSignificantBitIndex 0) = 0 from Nat.zero_and _]
    exact ih

theorem occAux_zero (fuel : Nat) : ∀ i acc, generateOccupancyMaskAux fuel 0 i 0 acc = acc := by
  induction fuel with
  | zero => intro i acc; rfl
  | succ n ih =>
    intro i acc
    unfold generateOccupancyMaskAux
    dsimp only
    rw [if_neg (by simp [Nat.zero_and])]
    rw [show clearBit 0 (getSquareOfLeastSignificantBitIndex 0) = 0 from Nat.zero_and _]
    exact ih (i + 1) acc

theorem occAuxCongr (fuel : Nat) : ∀ idx idx' i maskCur acc,
    (∀ j, i ≤ j → idx.testBit j = idx'.testBit j) →
    generateOccupancyMaskAux fuel idx i maskCur acc =
      generateOccupancyMaskAux fuel idx' i maskCur acc := by
  induction fuel with
  | zero => intro idx idx' i maskCur acc _; rfl
  | succ n ih =>
    intro idx idx' i maskCur acc h
    unfold generateOccupancyMaskAux
    dsimp only
    by_cases hb : idx.testBit i = true
    · have hb' : idx'.testBit i = true := by rw [← h i le_rfl]; exact hb
      rw [if_pos ((and_one_shl_ne idx i).mpr hb), if_pos ((and_one_shl_ne idx' i).mpr hb')]
      exact ih idx idx' (i + 1) _ _ (fun j hj => h j (by omega))
    · have hb' : ¬idx'.testBit i = true := by rw [← h i le_rfl]; exact hb
      rw [if_neg (fun hc => hb ((and_one_shl_ne idx i).mp hc)),
        if_neg (fun hc => hb' ((and_one_shl_ne idx' i).mp hc))]
      exact ih idx idx' (i + 1) _ _ (fun j hj => h j (by omega))

theorem or_clearBit_step (acc s sq : Nat) (hs : s < 2 ^ 64) :
    (if getBit s sq = 1 then setBit acc sq else acc) ||| clearBit s sq = acc ||| s := by
  apply Nat.eq_of_testBit_eq
  intro k
  rw [Nat.testBit_or, Nat.testBit_or, clearBit_testBit s sq k hs]
  by_cases hb : s.testBit sq = true
  · rw [if_pos (by rw [getBit_eq_testBit, hb]; rfl), setBit_testBit]
    by_cases hk : sq = k
    · subst hk
      simp [hb]
    · simp [hk]
  · rw [if_neg (by rw [getBit_eq_testBit]; simp [Bool.not_eq_true] at hb; simp [hb])]
    by_cases hk : sq = k
    · subst hk
      simp only [Bool.not_eq_true] at hb
      simp [hb]
    · simp [hk]

end ChessEngine

namespace ChessEngine

theorem occSurjAux (fuel : Nat) : ∀ maskCur s acc i,
    maskStrip fuel maskCur = 0 → maskCur < 2 ^ 64 → s &&& maskCur = s →
    ∃ idx, idx < 2 ^ fuel ∧
      generateOccupancyMaskAux fuel (idx <<< i) i maskCur acc = acc ||| s := by
  induction fuel with
  | zero =>
    intro maskCur s acc i hstrip hm hs
    have hm0 : maskCur = 0 := hstrip
    subst hm0
    have hs0 : s = 0 := by rw [← hs, Nat.and_zero]
    subst hs0
    exact ⟨0, by norm_num, by rw [Nat.or_zero]; rfl⟩
  | succ n ih =>
    intro maskCur s acc i hstrip hm hs
    by_cases hmz : maskCur = 0
    · subst hmz
      have hs0 : s = 0 := by rw [← hs, Nat.and_zero]
      subst hs0
      refine ⟨0, Nat.pos_pow_of_pos _ (by norm_num), ?_⟩
      rw [Nat.zero_shiftLeft, occAux_zero, Nat.or_zero]
    · have hsq64 : getSquareOfLeastSignificantBitIndex maskCur < 64 :=
        ctzAux_lt 64 maskCur hmz hm
      have hstrip' :
          maskStrip n (clearBit maskCur (getSquareOfLeastSignificantBitIndex maskCur)) = 0 :=
        hstrip
      have hm' : clearBit maskCur (getSquareOfLeastSignificantBitIndex maskCur) < 2 ^ 64 :=
        Nat.lt_of_le_of_lt (Nat.and_le_left) hm
      have hs64 : s < 2 ^ 64 := Nat.lt_of_le_of_lt (hs ▸ Nat.and_le_right) hm
      have hsk : ∀ k, (s.testBit k && maskCur.testBit k) = s.testBit k := fun k => by
        rw [← Nat.testBit_and, hs]
      have hs' :
          clearBit s (getSquareOfLeastSignificantBitIndex maskCur) &&&
              clearBit maskCur (getSquareOfLeastSignificantBitIndex maskCur) =
            clearBit s (getSquareOfLeastSignificantBitIndex maskCur) := by
        apply Nat.eq_of_testBit_eq
        intro k
        rw [Nat.testBit_and, clearBit_testBit s _ k hs64, clearBit_testBit maskCur _ k hm]
        have h3 := hsk k
        cases hb1 : s.testBit k <;> cases hb2 : maskCur.testBit k <;>
          simp [hb1, hb2] at h3 ⊢
      obtain ⟨idx, hidx, hres⟩ :=
        ih (clearBit maskCur (getSquareOfLeastSignificantBitIndex maskCur))
          (clearBit s (getSquareOfLeastSignificantBitIndex maskCur))
          (if getBit s (getSquareOfLeastSignificantBitIndex maskCur) = 1 then
            setBit acc (getSquareOfLeastSignificantBitIndex maskCur)
           else acc)
          (i + 1) hstrip' hm' hs'
      refine ⟨(if s.testBit (getSquareOfLeastSignificantBitIndex maskCur) then 1 else 0) +
        2 * idx, ?_, ?_⟩
      · rw [Nat.pow_succ]
        split_ifs <;> omega
      · unfold generateOccupancyMaskAux
        dsimp only
        have hdiv :
            ((if s.testBit (getSquareOfLeastSignificantBitIndex maskCur) then 1 else 0) +
              2 * idx) / 2 = idx := by
          split_ifs <;> omega
        have hlow :
            (((if s.testBit (getSquareOfLeastSignificantBitIndex maskCur) then 1 else 0) +
              2 * idx) <<< i).testBit i =
              s.testBit (getSquareOfLeastSignificantBitIndex maskCur) := by
          rw [Nat.testBit_shiftLeft]
          have h5 : (decide (i ≥ i) : Bool) = true := by simp
          rw [h5, Bool.true_and, Nat.sub_self, Nat.testBit_zero]
          split_ifs with h
          · simp [Nat.add_mul_mod_self_left, h]
          · simp only [Bool.not_eq_true] at h
            simp [Nat.add_mul_mod_self_left, h]
        have hcongr : ∀ a : Nat,
            generateOccupancyMaskAux n
              (((if s.testBit (getSquareOfLeastSignificantBitIndex maskCur) then 1 else 0) +
                2 * idx) <<< i) (i + 1)
              (clearBit maskCur (getSquareOfLeastSignificantBitIndex maskCur)) a =
            generateOccupancyMaskAux n (idx <<< (i + 1)) (i + 1)
              (clearBit maskCur (getSquareOfLeastSignificantBitIndex maskCur)) a := by
          intro a
          apply occAuxCongr
          intro j hj
          rw [Nat.testBit_shiftLeft, Nat.testBit_shiftLeft]
          have h1 : (decide (j ≥ i) : Bool) = true := by simp; omega
          have h2 : (decide (j ≥ i + 1) : Bool) = true := by simp; omega
          rw [h1, h2, Bool.true_and, Bool.true_and]
          rw [show j - i = (j - (i + 1)) + 1 by omega, Nat.testBit_succ, hdiv]
        have hstep := or_clearBit_step acc s (getSquareOfLeastSignificantBitIndex maskCur) hs64
        have hcondIff :
            ((((if s.testBit (getSquareOfLeastSignificantBitIndex maskCur) then 1 else 0) +
                2 * idx) <<< i) &&& (1 <<< i) ≠ 0) ↔
              s.testBit (getSquareOfLeastSignificantBitIndex maskCur) = true := by
          rw [and_one_shl_ne, hlow]
        by_cases hbit : s.testBit (getSquareOfLeastSignificantBitIndex maskCur) = true
        · have hget : getBit s (getSquareOfLeastSignificantBitIndex maskCur) = 1 := by
            rw [getBit_eq_testBit, hbit]
            rfl
          rw [if_pos (hcondIff.mpr hbit)]
          rw [hcongr]
          rw [if_pos hget] at hres
          rw [hres]
          rw [if_pos hget] at hstep
          exact hstep
        · have hget : ¬getBit s (getSquareOfLeastSignificantBitIndex maskCur) = 1 := by
            simp only [Bool.not_eq_true] at hbit
            rw [getBit_eq_testBit, hbit]
            norm_num
          rw [if_neg (fun hc => hbit (hcondIff.mp hc))]
          rw [hcongr]
          rw [if_neg hget] at hres
          rw [hres]
          rw [if_neg hget] at hstep
          exact hstep

theorem occSurj (mask s fuel : Nat) (hstrip : maskStrip fuel mask = 0)
    (hpop : getNumberOfBitsSet mask = fuel) (hm : mask < 2 ^ 64) (hs : s &&& mask = s) :
    ∃ idx, idx < 2 ^ fuel ∧ generateOccupancyMask idx mask = s := by
  obtain ⟨idx, h1, h2⟩ := occSurjAux fuel mask s 0 0 hstrip hm hs
  refine ⟨idx, h1, ?_⟩
  unfold generateOccupancyMask
  rw [hpop]
  rw [Nat.shiftLeft_zero] at h2
  rw [Nat.zero_or] at h2
  exact h2

end ChessEngine

namespace ChessEngine

theorem testBit_or_foldl (g : Nat → Nat) (k : Nat) (l : List Nat) : ∀ acc : Nat,
    (l.foldl (fun a i => a ||| g i) acc).testBit k =
      (acc.testBit k || l.any (fun i => (g i).testBit k)) := by
  induction l with
  | nil => intro acc; simp
  | cons x xs ih =>
    intro acc
    simp only [List.foldl_cons, List.any_cons]
    rw [ih (acc ||| g x), Nat.testBit_or]
    cases acc.testBit k <;> cases (g x).testBit k <;> simp

theorem magicIndexFn_lt (magic bits occ : Nat) (hb : bits ≤ 64) :
    magicIndexFn magic bits occ < 2 ^ bits := by
  unfold magicIndexFn
  rw [Nat.shiftRight_eq_div_pow]
  have h1 : occ * magic &&& UINT64_MASK < 2 ^ 64 := by
    have h2 : occ * magic &&& UINT64_MASK ≤ UINT64_MASK := Nat.and_le_right
    have h3 : UINT64_MASK < 2 ^ 64 := by norm_num [UINT64_MASK]
    omega
  refine Nat.div_lt_of_lt_mul ?_
  have h4 : (2 : Nat) ^ (64 - bits) * 2 ^ bits = 2 ^ 64 := by
    rw [← pow_add]
    congr 1
    omega
  omega

theorem cover_surj (mask magic bits : Nat)
    (hcover : indexCover mask magic bits = 2 ^ 2 ^ bits - 1) :
    ∀ k, k < 2 ^ bits → ∃ i, i < 2 ^ bits ∧
      magicIndexFn magic bits (generateOccupancyMask i mask) = k := by
  intro k hk
  have h1 : (indexCover mask magic bits).testBit k = true := by
    rw [hcover, Nat.testBit_two_pow_sub_one]
    simpa using hk
  unfold indexCover at h1
  rw [testBit_or_foldl] at h1
  simp only [Nat.zero_testBit, Bool.false_or, List.any_eq_true] at h1
  obtain ⟨i, hi, hbit⟩ := h1
  rw [testBit_one_shl] at hbit
  exact ⟨i, List.mem_range.mp hi, of_decide_eq_true hbit⟩

theorem magic_inj (mask magic bits : Nat) (hb : bits ≤ 64)
    (hcover : indexCover mask magic bits = 2 ^ 2 ^ bits - 1) :
    ∀ a c, a < 2 ^ bits → c < 2 ^ bits →
      magicIndexFn magic bits (generateOccupancyMask a mask) =
        magicIndexFn magic bits (generateOccupancyMask c mask) → a = c := by
  have hsurj : Function.Surjective
      (fun i : Fin (2 ^ bits) =>
        (⟨magicIndexFn magic bits (generateOccupancyMask i.val mask),
          magicIndexFn_lt magic bits _ hb⟩ : Fin (2 ^ bits))) := by
    rintro ⟨k, hk⟩
    obtain ⟨i, hi, he⟩ := cover_surj mask magic bits hcover k hk
    exact ⟨⟨i, hi⟩, Fin.ext he⟩
  have hinj := (Finite.injective_iff_surjective).mpr hsurj
  intro a c ha hc he
  have h2 : (⟨a, ha⟩ : Fin (2 ^ bits)) = ⟨c, hc⟩ := hinj (Fin.ext he)
  exact congrArg Fin.val h2

theorem sliderTableAux_read (otf : Nat → Nat → Nat) (sq mask magic bits : Nat)
    (hinj : ∀ a c, a < 2 ^ bits → c < 2 ^ bits →
      magicIndexFn magic bits (generateOccupancyMask a mask) =
        magicIndexFn magic bits (generateOccupancyMask c mask) → a = c) :
    ∀ n, n ≤ 2 ^ bits → ∀ i, i < n →
      sliderTableAux otf sq mask magic bits n
          (magicIndexFn magic bits (generateOccupancyMask i mask)) =
        otf sq (generateOccupancyMask i mask) := by
  intro n
  induction n with
  | zero => intro _ i hi; omega
  | succ m ih =>
    intro hn i hi
    unfold sliderTableAux
    dsimp only
    simp only [updFn]
    by_cases he : i = m
    · subst he
      rw [if_pos rfl]
    · rw [if_neg (fun hcon => he (hinj i m (by omega) (by omega) hcon))]
      exact ih (by omega) i (by omega)

theorem sliderLookup_eq (otf : Nat → Nat → Nat) (sq mask magic bits occ : Nat)
    (hb : bits ≤ 64) (hm : mask < 2 ^ 64)
    (hpop : getNumberOfBitsSet mask = bits) (hstrip : maskStrip bits mask = 0)
    (hcover : indexCover mask magic bits = 2 ^ 2 ^ bits - 1) :
    sliderLookup otf sq mask magic bits occ = otf sq (occ &&& mask) := by
  have hsub : (occ &&& mask) &&& mask = occ &&& mask := by
    rw [Nat.and_assoc, Nat.and_self]
  obtain ⟨i, hi, hocc⟩ := occSurj mask (occ &&& mask) bits hstrip hpop hm hsub
  unfold sliderLookup sliderTable
  rw [← hocc]
  exact sliderTableAux_read otf sq mask magic bits
    (magic_inj mask magic bits hb hcover) (2 ^ bits) le_rfl i hi

end ChessEngine

namespace ChessEngine

set_option maxRecDepth 100000 in
theorem bishop_table_facts : ∀ sq, sq < 64 →
    generateBishopAttacks sq < 2 ^ 64 ∧
    getNumberOfBitsSet (generateBishopAttacks sq) = BISHOP_RELEVANT_BITS.getD sq 0 ∧
    maskStrip (BISHOP_RELEVANT_BITS.getD sq 0) (generateBishopAttacks sq) = 0 ∧
    BISHOP_RELEVANT_BITS.getD sq 0 ≤ 64 := by decide

set_option maxRecDepth 100000 in
theorem rook_table_facts : ∀ sq, sq < 64 →
    generateRookAttacks sq < 2 ^ 64 ∧
    getNumberOfBitsSet (generateRookAttacks sq) = ROOK_RELEVANT_BITS.getD sq 0 ∧
    maskStrip (ROOK_RELEVANT_BITS.getD sq 0) (generateRookAttacks sq) = 0 ∧
    ROOK_RELEVANT_BITS.getD sq 0 ≤ 64 := by decide

/-- C7, confirmed.  For every square and every magic constant that is a
perfect hash on that square's relevant blocker subsets (the property the
spec states for the constants of `magic.h`, carried here as the
`indexCover` hypothesis), the magic-indexed table built by `initSlider`
looks up, for *every* occupancy, exactly the attack set the on-the-fly ray
walk computes on the occupancy restricted to the relevant mask — in
particular it agrees on every blocker subset of the mask. -/
theorem C7_magic_lookup (sq bMagic rMagic occ : Nat) (hsq : sq < 64)
    (hbc : indexCover (generateBishopAttacks sq) bMagic (BISHOP_RELEVANT_BITS.getD sq 0) =
      2 ^ 2 ^ (BISHOP_RELEVANT_BITS.getD sq 0) - 1)
    (hrc : indexCover (generateRookAttacks sq) rMagic (ROOK_RELEVANT_BITS.getD sq 0) =
      2 ^ 2 ^ (ROOK_RELEVANT_BITS.getD sq 0) - 1) :
    sliderLookup generateBishopAttacksOnTheFly sq (generateBishopAttacks sq) bMagic
        (BISHOP_RELEVANT_BITS.getD sq 0) occ = getBishopAttacks sq occ ∧
    sliderLookup generateRookAttacksOnTheFly sq (generateRookAttacks sq) rMagic
        (ROOK_RELEVANT_BITS.getD sq 0) occ = getRookAttacks sq occ := by
  obtain ⟨hb1, hb2, hb3, hb4⟩ := bishop_table_facts sq hsq
  obtain ⟨hr1, hr2, hr3, hr4⟩ := rook_table_facts sq hsq
  unfold getBishopAttacks getRookAttacks
  exact ⟨sliderLookup_eq generateBishopAttacksOnTheFly sq _ bMagic _ occ hb4 hb1 hb2 hb3 hbc,
    sliderLookup_eq generateRookAttacksOnTheFly sq _ rMagic _ occ hr4 hr1 hr2 hr3 hrc⟩

end ChessEngine

namespace ChessEngine

theorem foldl_congr_fn {α β : Type} (f g : α → β → α) (l : List β)
    (h : ∀ a b, f a b = g a b) : ∀ a, l.foldl f a = l.foldl g a := by
  induction l with
  | nil => intro a; rfl
  | cons x xs ih =>
    intro a
    simp only [List.foldl_cons]
    rw [h a x]
    exact ih (g a x)

theorem foldl_or_shift (g : Nat → Nat) (l : List Nat) :
    ∀ acc, l.foldl (fun a i => a ||| g i) acc = acc ||| l.foldl (fun a i => a ||| g i) 0 := by
  induction l with
  | nil => intro acc; simp
  | cons x xs ih =>
    intro acc
    simp only [List.foldl_cons]
    rw [ih (acc ||| g x), ih (0 ||| g x), Nat.zero_or, Nat.or_assoc]

theorem coverFrom_succ (mask magic bits start n : Nat) :
    coverFrom mask magic bits start (n + 1) =
      coverFrom mask magic bits start n |||
        (1 <<< magicIndexFn magic bits (generateOccupancyMask (start + n) mask)) := by
  unfold coverFrom
  rw [List.range_succ, List.foldl_append]
  rfl

theorem coverFrom_split (mask magic bits start c1 c2 : Nat) :
    coverFrom mask magic bits start (c1 + c2) =
      coverFrom mask magic bits start c1 ||| coverFrom mask magic bits (start + c1) c2 := by
  induction c2 with
  | zero =>
    rw [show coverFrom mask magic bits (start + c1) 0 = 0 from rfl, Nat.or_zero,
      Nat.add_zero]
  | succ n ih =>
    rw [show c1 + (n + 1) = (c1 + n) + 1 by omega, coverFrom_succ, ih, coverFrom_succ,
      Nat.or_assoc, show start + (c1 + n) = start + c1 + n by omega]

theorem coverFrom_one (mask magic bits start : Nat) :
    coverFrom mask magic bits start 1 =
      1 <<< magicIndexFn magic bits (generateOccupancyMask start mask) := by
  unfold coverFrom
  simp [List.range_succ]

theorem coverTreeAux_eq (mask magic bits : Nat) (fuel : Nat) : ∀ start cnt, cnt ≤ 2 ^ fuel →
    coverTreeAux mask magic bits fuel start cnt = coverFrom mask magic bits start cnt := by
  induction fuel with
  | zero =>
    intro start cnt hcnt
    interval_cases cnt
    · rw [show coverTreeAux mask magic bits 0 start 0 = 0 from rfl]
      rfl
    · rw [show coverTreeAux mask magic bits 0 start 1 =
        1 <<< magicIndexFn magic bits (generateOccupancyMask start mask) from rfl]
      rw [coverFrom_one]
  | succ n ih =>
    intro start cnt hcnt
    unfold coverTreeAux
    by_cases h0 : cnt = 0
    · subst h0
      rw [if_pos rfl]
      rfl
    · rw [if_neg h0]
      by_cases h1 : cnt = 1
      · subst h1
        rw [if_pos rfl, coverFrom_one]
      · rw [if_neg h1]
        have h2 : 2 ≤ cnt := by omega
        have hp : (2 : Nat) ^ (n + 1) = 2 * 2 ^ n := by rw [Nat.pow_succ]; ring
        rw [ih start (cnt / 2) (by omega), ih (start + cnt / 2) (cnt - cnt / 2) (by omega)]
        rw [show cnt = cnt / 2 + (cnt - cnt / 2) by omega]
        rw [coverFrom_split]
        rw [show cnt / 2 + (cnt - cnt / 2) = cnt by omega]

theorem indexCover_eq_tree (mask magic bits : Nat) :
    indexCover mask magic bits = coverTreeAux mask magic bits bits 0 (2 ^ bits) := by
  rw [coverTreeAux_eq mask magic bits bits 0 (2 ^ bits) le_rfl]
  unfold indexCover coverFrom
  exact foldl_congr_fn _ _ _ (fun a j => by rw [Nat.zero_add]) 0

end ChessEngine

namespace ChessEngine

set_option maxRecDepth 1000000 in
set_option exponentiation.threshold 5000 in
/-- C7, witness: on b7 (square 9) the two concrete magics perfectly hash
the 32 bishop (and 1024 rook) blocker subsets, and the table lookup of the
empty occupancy agrees with the on-the-fly walk. -/
theorem C7_witness :
    (9 : Nat) < 64 ∧
    indexCover (generateBishopAttacks 9) c7BishopMagic (BISHOP_RELEVANT_BITS.getD 9 0) =
      2 ^ 2 ^ (BISHOP_RELEVANT_BITS.getD 9 0) - 1 ∧
    indexCover (generateRookAttacks 9) c7RookMagic (ROOK_RELEVANT_BITS.getD 9 0) =
      2 ^ 2 ^ (ROOK_RELEVANT_BITS.getD 9 0) - 1 ∧
    (sliderLookup generateBishopAttacksOnTheFly 9 (generateBishopAttacks 9) c7BishopMagic
        (BISHOP_RELEVANT_BITS.getD 9 0) 0 = getBishopAttacks 9 0 ∧
     sliderLookup generateRookAttacksOnTheFly 9 (generateRookAttacks 9) c7RookMagic
        (ROOK_RELEVANT_BITS.getD 9 0) 0 = getRookAttacks 9 0) := by
  have hb : indexCover (generateBishopAttacks 9) c7BishopMagic
      (BISHOP_RELEVANT_BITS.getD 9 0) = 2 ^ 2 ^ (BISHOP_RELEVANT_BITS.getD 9 0) - 1 := by
    rw [indexCover_eq_tree]
    decide
  have hr : indexCover (generateRookAttacks 9) c7RookMagic
      (ROOK_RELEVANT_BITS.getD 9 0) = 2 ^ 2 ^ (ROOK_RELEVANT_BITS.getD 9 0) - 1 := by
    rw [indexCover_eq_tree]
    decide
  exact ⟨by decide, hb, hr, C7_magic_lookup 9 c7BishopMagic c7RookMagic 0 (by decide) hb hr⟩

end ChessEngine

namespace ChessEngine

theorem getD_bound_of_mem {C : Int} (t : List Int) (h : ∀ x ∈ t, -C ≤ x ∧ x ≤ C)
    (hC : 0 ≤ C) (i : Nat) : -C ≤ t.getD i 0 ∧ t.getD i 0 ≤ C := by
  by_cases hi : i < t.length
  · have hmem : t.getD i 0 ∈ t := by
      rw [List.getD_eq_getElem t 0 hi]
      exact t.getElem_mem hi
    exact h _ hmem
  · rw [List.getD_eq_default _ _ (by omega)]
    omega

set_option maxHeartbeats 1000000 in
theorem pstTerm_bound (piece sq : Nat) : -50 ≤ pstTerm piece sq ∧ pstTerm piece sq ≤ 50 := by
  have hp : ∀ x ∈ s_pawnTable, -(50:Int) ≤ x ∧ x ≤ 50 := by decide
  have hn : ∀ x ∈ s_knightTable, -(50:Int) ≤ x ∧ x ≤ 50 := by decide
  have hb : ∀ x ∈ s_bishopTable, -(50:Int) ≤ x ∧ x ≤ 50 := by decide
  have hr : ∀ x ∈ s_rookTable, -(50:Int) ≤ x ∧ x ≤ 50 := by decide
  have hq : ∀ x ∈ s_queenTable, -(50:Int) ≤ x ∧ x ≤ 50 := by decide
  have hk : ∀ x ∈ s_kingMiddleGameTable, -(50:Int) ≤ x ∧ x ≤ 50 := by decide
  unfold pstTerm
  by_cases h0 : piece = 0
  · rw [if_pos h0]
    have := getD_bound_of_mem s_pawnTable hp (by norm_num) sq
    omega
  · rw [if_neg h0]
    by_cases h1 : piece = 6
    · rw [if_pos h1]
      have := getD_bound_of_mem s_pawnTable hp (by norm_num) (63 - sq)
      omega
    · rw [if_neg h1]
      by_cases h2 : piece = 1
      · rw [if_pos h2]
        have := getD_bound_of_mem s_knightTable hn (by norm_num) sq
        omega
      · rw [if_neg h2]
        by_cases h3 : piece = 7
        · rw [if_pos h3]
          have := getD_bound_of_mem s_knightTable hn (by norm_num) (63 - sq)
          omega
        · rw [if_neg h3]
          by_cases h4 : piece = 2
          · rw [if_pos h4]
            have := getD_bound_of_mem s_bishopTable hb (by norm_num) sq
            omega
          · rw [if_neg h4]
            by_cases h5 : piece = 8
            · rw [if_pos h5]
              have := getD_bound_of_mem s_bishopTable hb (by norm_num) (63 - sq)
              omega
            · rw [if_neg h5]
              by_cases h6 : piece = 3
              · rw [if_pos h6]
                have := getD_bound_of_mem s_rookTable hr (by norm_num) sq
                omega
              · rw [if_neg h6]
                by_cases h7 : piece = 9
                · rw [if_pos h7]
                  have := getD_bound_of_mem s_rookTable hr (by norm_num) (63 - sq)
                  omega
                · rw [if_neg h7]
                  by_cases h8 : piece = 4
                  · rw [if_pos h8]
                    have := getD_bound_of_mem s_queenTable hq (by norm_num) sq
                    omega
                  · rw [if_neg h8]
                    by_cases h9 : piece = 10
                    · rw [if_pos h9]
                      have := getD_bound_of_mem s_queenTable hq (by norm_num) (63 - sq)
                      omega
                    · rw [if_neg h9]
                      by_cases h10 : piece = 5
                      · rw [if_pos h10]
                        have := getD_bound_of_mem s_kingMiddleGameTable hk (by norm_num) sq
                        omega
                      · rw [if_neg h10]
                        by_cases h11 : piece = 11
                        · rw [if_pos h11]
                          have := getD_bound_of_mem s_kingMiddleGameTable hk (by norm_num) (63 - sq)
                          omega
                        · rw [if_neg h11]
                          omega

theorem piecesValues_bound (piece : Nat) :
    -20000 ≤ s_piecesValues.getD piece 0 ∧ s_piecesValues.getD piece 0 ≤ 20000 := by
  have h : ∀ x ∈ s_piecesValues, -(20000:Int) ≤ x ∧ x ≤ 20000 := by decide
  exact getD_bound_of_mem s_piecesValues h (by norm_num) piece

theorem foldl_step_bound {α : Type} (step : Int → α → Int) (D : Int)
    (h : ∀ a x, a - D ≤ step a x ∧ step a x ≤ a + D) :
    ∀ (l : List α) (a : Int),
      a - l.length * D ≤ l.foldl step a ∧ l.foldl step a ≤ a + l.length * D := by
  intro l
  induction l with
  | nil => intro a; simp
  | cons x xs ih =>
    intro a
    simp only [List.foldl_cons, List.length_cons]
    have h1 := h a x
    have h2 := ih (step a x)
    have h3 : ((xs.length : Int) + 1) * D = xs.length * D + D := by ring
    push_cast
    push_cast at h2
    constructor <;> nlinarith [h2.1, h2.2, h1.1, h1.2]

theorem squaresOfAux_length (fuel : Nat) : ∀ bb, (squaresOfAux fuel bb).length ≤ fuel := by
  induction fuel with
  | zero => intro bb; simp [squaresOfAux]
  | succ n ih =>
    intro bb
    unfold squaresOfAux
    split_ifs
    · simp
    · simp only [List.length_cons]
      have := ih (clearBit bb (getSquareOfLeastSignificantBitIndex bb))
      omega

theorem evalBound (b : Board) :
    -15398400 ≤ evaluatePosition b ∧ evaluatePosition b ≤ 15398400 := by
  unfold evaluatePosition
  dsimp only
  have hinner : ∀ (piece : Nat) (acc : Int),
      acc - 1283200 ≤ (squaresOf (b.pieceBB piece)).foldl
          (fun acc2 sq => acc2 + s_piecesValues.getD piece 0 + pstTerm piece sq) acc ∧
        (squaresOf (b.pieceBB piece)).foldl
          (fun acc2 sq => acc2 + s_piecesValues.getD piece 0 + pstTerm piece sq) acc ≤
          acc + 1283200 := by
    intro piece acc
    have hstep : ∀ (a : Int) (sq : Nat),
        a - 20050 ≤ a + s_piecesValues.getD piece 0 + pstTerm piece sq ∧
          a + s_piecesValues.getD piece 0 + pstTerm piece sq ≤ a + 20050 := by
      intro a sq
      have h1 := piecesValues_bound piece
      have h2 := pstTerm_bound piece sq
      omega
    have hlen : (squaresOf (b.pieceBB piece)).length ≤ 64 :=
      squaresOfAux_length 64 (b.pieceBB piece)
    have := foldl_step_bound _ 20050 hstep (squaresOf (b.pieceBB piece)) acc
    have hl : ((squaresOf (b.pieceBB piece)).length : Int) * 20050 ≤ 1283200 := by
      have : ((squaresOf (b.pieceBB piece)).length : Int) ≤ 64 := by exact_mod_cast hlen
      nlinarith
    omega
  have houter := foldl_step_bound
    (fun acc piece =>
      (squaresOf (b.pieceBB piece)).foldl
        (fun acc2 sq => acc2 + s_piecesValues.getD piece 0 + pstTerm piece sq) acc)
    1283200 (fun a x => hinner x a) (List.range 12) 0
  simp only [List.length_range] at houter
  split_ifs <;> omega

end ChessEngine

namespace ChessEngine

theorem qLoop_bounds (fuel : Nat) (beta : Int) (b : Board) (ply : Nat)
    (hply : ply + 1 ≤ maxPly) (hbM : beta ≤ positiveInfinity)
    (IH : ∀ (a2 b2 : Int) (bd2 : Board) (p2 : Nat) (st2 : SearchSt),
      -positiveInfinity ≤ a2 → a2 < b2 → b2 ≤ positiveInfinity → p2 ≤ maxPly →
      (-positiveInfinity < (quiescence fuel a2 b2 bd2 p2 st2).fst ∧
        (quiescence fuel a2 b2 bd2 p2 st2).fst < positiveInfinity) ∧
      ((quiescence fuel a2 b2 bd2 p2 st2).fst ≤ max a2 (positiveInfinity - (p2 : Int) - 1) ∨
        (quiescence fuel a2 b2 bd2 p2 st2).fst = b2) ∧
      (min b2 (-positiveInfinity + (p2 : Int)) ≤ (quiescence fuel a2 b2 bd2 p2 st2).fst ∨
        (quiescence fuel a2 b2 bd2 p2 st2).fst = a2)) :
    ∀ (ms : List Move) (alpha : Int) (st : SearchSt),
      -positiveInfinity < alpha → alpha < beta →
      (-positiveInfinity < (qLoop (quiescence fuel) beta b ply ms alpha st).fst ∧
        (qLoop (quiescence fuel) beta b ply ms alpha st).fst < positiveInfinity) ∧
      ((qLoop (quiescence fuel) beta b ply ms alpha st).fst ≤
          max alpha (positiveInfinity - (ply : Int) - 1) ∨
        (qLoop (quiescence fuel) beta b ply ms alpha st).fst = beta) ∧
      (alpha ≤ (qLoop (quiescence fuel) beta b ply ms alpha st).fst ∨
        (qLoop (quiescence fuel) beta b ply ms alpha st).fst = beta) := by
  intro ms
  induction ms with
  | nil =>
    intro alpha st h1 h2
    have hr : (qLoop (quiescence fuel) beta b ply [] alpha st).fst = alpha := rfl
    rw [hr]
    exact ⟨⟨h1, by omega⟩, Or.inl (le_max_left _ _), Or.inl le_rfl⟩
  | cons m rest ih =>
    intro alpha st h1 h2
    unfold qLoop
    by_cases hcap : m.isCapture = true
    · rw [if_neg (by simp [hcap])]
      by_cases hleg : (makeMove b m).fst = true
      · rw [if_neg (by simp [hleg])]
        dsimp only
        have hq := IH (-beta) (-alpha) (makeMove b m).snd (ply + 1) st
          (by omega) (by omega) (by omega) (by omega)
        obtain ⟨⟨hqT1, hqT2⟩, hqU, hqL⟩ := hq
        by_cases hcut : beta ≤ -(quiescence fuel (-beta) (-alpha) (makeMove b m).snd
            (ply + 1) st).fst
        · rw [if_pos hcut]
          refine ⟨⟨by omega, by omega⟩, Or.inr rfl, Or.inr rfl⟩
        · rw [if_neg hcut]
          by_cases hraise : alpha < -(quiescence fuel (-beta) (-alpha) (makeMove b m).snd
              (ply + 1) st).fst
          · rw [if_pos hraise]
            have hrec := ih (-(quiescence fuel (-beta) (-alpha) (makeMove b m).snd
                (ply + 1) st).fst)
              (quiescence fuel (-beta) (-alpha) (makeMove b m).snd (ply + 1) st).snd
              (by omega) (by omega)
            obtain ⟨hrT, hrU, hrL⟩ := hrec
            refine ⟨hrT, ?_, ?_⟩
            · rcases hrU with h | h
              · refine Or.inl (le_trans h ?_)
                rcases hqL with h3 | h3
                · push_cast at h3
                  omega
                · omega
              · exact Or.inr h
            · rcases hrL with h | h
              · exact Or.inl (by omega)
              · exact Or.inr h
          · rw [if_neg hraise]
            exact ih alpha
              (quiescence fuel (-beta) (-alpha) (makeMove b m).snd (ply + 1) st).snd h1 h2
      · rw [if_pos (by simp [Bool.not_eq_true] at hleg; simp [hleg])]
        exact ih alpha st h1 h2
    · rw [if_pos (by simp [Bool.not_eq_true] at hcap; simp [hcap])]
      exact ih alpha st h1 h2

theorem quiescence_bounds (fuel : Nat) : ∀ (alpha beta : Int) (b : Board) (ply : Nat)
    (st : SearchSt),
    -positiveInfinity ≤ alpha → alpha < beta → beta ≤ positiveInfinity → ply ≤ maxPly →
    (-positiveInfinity < (quiescence fuel alpha beta b ply st).fst ∧
      (quiescence fuel alpha beta b ply st).fst < positiveInfinity) ∧
    ((quiescence fuel alpha beta b ply st).fst ≤ max alpha (positiveInfinity - (ply : Int) - 1) ∨
      (quiescence fuel alpha beta b ply st).fst = beta) ∧
    (min beta (-positiveInfinity + (ply : Int)) ≤ (quiescence fuel alpha beta b ply st).fst ∨
      (quiescence fuel alpha beta b ply st).fst = alpha) := by
  induction fuel with
  | zero =>
    intro alpha beta b ply st h1 h2 h3 hply
    have he := evalBound b
    have hM : positiveInfinity = 2147483647 := rfl
    have hmp : maxPly = 256 := rfl
    rw [show (quiescence 0 alpha beta b ply st).fst = evaluatePosition b from rfl]
    rw [hmp] at hply
    refine ⟨⟨by omega, by omega⟩, Or.inl ?_, Or.inl ?_⟩ <;> omega
  | succ n ih =>
    intro alpha beta b ply st h1 h2 h3 hply
    have he := evalBound b
    have hM : positiveInfinity = 2147483647 := rfl
    have hmp : maxPly = 256 := rfl
    unfold quiescence
    dsimp only
    by_cases hcap : maxPly ≤ ply
    · rw [if_pos hcap]
      rw [hmp] at hply hcap
      refine ⟨⟨by omega, by omega⟩, Or.inl ?_, Or.inl ?_⟩ <;> omega
    · rw [if_neg hcap]
      by_cases hbe : beta ≤ evaluatePosition b
      · rw [if_pos hbe]
        refine ⟨⟨by omega, by omega⟩, Or.inr rfl, Or.inl ?_⟩
        omega
      · rw [if_neg hbe]
        rw [hmp] at hply hcap
        have hq := qLoop_bounds n beta b ply (by rw [hmp]; omega) h3 ih
          (sortMoves (generateMoves b) ply []
            { st with nodes := st.nodes + 1 })
          (if alpha < evaluatePosition b then evaluatePosition b else alpha)
          { st with nodes := st.nodes + 1 }
          (by split_ifs <;> omega) (by split_ifs <;> omega)
        obtain ⟨hT, hU, hL⟩ := hq
        refine ⟨hT, ?_, ?_⟩
        · rcases hU with h | h
          · refine Or.inl (le_trans h ?_)
            split_ifs <;> omega
          · exact Or.inr h
        · rcases hL with h | h
          · refine Or.inl (le_trans ?_ h)
            split_ifs <;> omega
          · refine Or.inl ?_
            rw [h]
            exact min_le_left _ _

end ChessEngine

namespace ChessEngine

/-- The window/strictness contract used for recursive search calls: values
strictly inside `(-INT_MAX, INT_MAX)`, at most `max alpha (INT_MAX-ply-1)`
unless the call fails high to `beta`, and at least
`min beta (-INT_MAX+ply)` unless the call fails low to `alpha`. -/
def nfContract
    (nf : Int → Int → Board → List Move → Nat → Nat → SearchSt →
      Int × List Move × SearchSt) : Prop :=
  ∀ (a2 b2 : Int) (bd2 : Board) (pv2 : List Move) (d2 p2 : Nat) (st2 : SearchSt),
    -positiveInfinity ≤ a2 → a2 < b2 → b2 ≤ positiveInfinity → 1 ≤ p2 → p2 ≤ maxPly →
    (-positiveInfinity < (nf a2 b2 bd2 pv2 d2 p2 st2).fst ∧
      (nf a2 b2 bd2 pv2 d2 p2 st2).fst < positiveInfinity) ∧
    ((nf a2 b2 bd2 pv2 d2 p2 st2).fst ≤ max a2 (positiveInfinity - (p2 : Int) - 1) ∨
      (nf a2 b2 bd2 pv2 d2 p2 st2).fst = b2) ∧
    (min b2 (-positiveInfinity + (p2 : Int)) ≤ (nf a2 b2 bd2 pv2 d2 p2 st2).fst ∨
      (nf a2 b2 bd2 pv2 d2 p2 st2).fst = a2)

theorem pvsChild_bounds
    (nf : Int → Int → Board → List Move → Nat → Nat → SearchSt →
      Int × List Move × SearchSt)
    (beta : Int) (depth ply : Nat) (isChk : Bool) (ext : Nat) (m : Move) (nb : Board)
    (idx : Nat) (alpha : Int) (line : List Move) (st : SearchSt) (ms : Nat)
    (h1 : -positiveInfinity ≤ alpha) (h2 : alpha < beta) (h3 : beta ≤ positiveInfinity)
    (hply : ply + 1 ≤ maxPly) (HNF : nfContract nf) :
    (-positiveInfinity <
        (pvsChild nf beta depth ply isChk ext m nb idx alpha line st ms).fst ∧
      (pvsChild nf beta depth ply isChk ext m nb idx alpha line st ms).fst <
        positiveInfinity) ∧
    (alpha < (pvsChild nf beta depth ply isChk ext m nb idx alpha line st ms).fst →
      (pvsChild nf beta depth ply isChk ext m nb idx alpha line st ms).fst < beta →
      (pvsChild nf beta depth ply isChk ext m nb idx alpha line st ms).fst ≤
          positiveInfinity - (ply : Int) - 1 ∧
        -positiveInfinity + (ply : Int) + 2 ≤
          (pvsChild nf beta depth ply isChk ext m nb idx alpha line st ms).fst) := by
  unfold pvsChild
  dsimp only
  by_cases hms : ms = 0
  · rw [if_pos hms]
    obtain ⟨⟨t1, t2⟩, hU, hL⟩ := HNF (-beta) (-alpha) nb line (depth - 1 + ext) (ply + 1) st
      (by omega) (by omega) (by omega) (by omega) hply
    push_cast at hU hL
    exact ⟨⟨by omega, by omega⟩, fun hgt hlt => ⟨by omega, by omega⟩⟩
  · rw [if_neg hms]
    by_cases hcr : canReduce idx m isChk depth ext = true
    · rw [if_pos hcr]
      dsimp only
      set C1 := nf (-alpha - 1) (-alpha) nb line (depth - 2 + ext) (ply + 1) st with hC1
      obtain ⟨⟨s1, s2⟩, _, _⟩ := HNF (-alpha - 1) (-alpha) nb line (depth - 2 + ext)
        (ply + 1) st (by omega) (by omega) (by omega) (by omega) hply
      rw [← hC1] at s1 s2
      by_cases hlt0 : alpha < -C1.fst
      · rw [if_pos hlt0]
        set C2 := nf (-alpha - 1) (-alpha) nb C1.2.1 (depth - 1 + ext) (ply + 1) C1.2.2
          with hC2
        obtain ⟨⟨u1, u2⟩, _, _⟩ := HNF (-alpha - 1) (-alpha) nb C1.2.1 (depth - 1 + ext)
          (ply + 1) C1.2.2 (by omega) (by omega) (by omega) (by omega) hply
        rw [← hC2] at u1 u2
        by_cases hin : alpha < -C2.fst ∧ -C2.fst < beta
        · rw [if_pos hin]
          set C3 := nf (-beta) (-alpha) nb C2.2.1 (depth - 1 + ext) (ply + 1) C2.2.2
            with hC3
          obtain ⟨⟨v1, v2⟩, hU, hL⟩ := HNF (-beta) (-alpha) nb C2.2.1 (depth - 1 + ext)
            (ply + 1) C2.2.2 (by omega) (by omega) (by omega) (by omega) hply
          rw [← hC3] at v1 v2 hU hL
          push_cast at hU hL
          exact ⟨⟨by omega, by omega⟩, fun hgt hlt => ⟨by omega, by omega⟩⟩
        · rw [if_neg hin]
          exact ⟨⟨by omega, by omega⟩, fun hgt hlt => absurd ⟨hgt, hlt⟩ hin⟩
      · rw [if_neg hlt0]
        exact ⟨⟨by omega, by omega⟩, fun hgt _ => absurd hgt hlt0⟩
    · rw [if_neg hcr]
      dsimp only
      rw [if_pos (by omega : alpha < alpha + 1)]
      set C2 := nf (-alpha - 1) (-alpha) nb line (depth - 1 + ext) (ply + 1) st with hC2
      obtain ⟨⟨u1, u2⟩, _, _⟩ := HNF (-alpha - 1) (-alpha) nb line (depth - 1 + ext)
        (ply + 1) st (by omega) (by omega) (by omega) (by omega) hply
      rw [← hC2] at u1 u2
      by_cases hin : alpha < -C2.fst ∧ -C2.fst < beta
      · rw [if_pos hin]
        set C3 := nf (-beta) (-alpha) nb C2.2.1 (depth - 1 + ext) (ply + 1) C2.2.2 with hC3
        obtain ⟨⟨v1, v2⟩, hU, hL⟩ := HNF (-beta) (-alpha) nb C2.2.1 (depth - 1 + ext)
          (ply + 1) C2.2.2 (by omega) (by omega) (by omega) (by omega) hply
        rw [← hC3] at v1 v2 hU hL
        push_cast at hU hL
        exact ⟨⟨by omega, by omega⟩, fun hgt hlt => ⟨by omega, by omega⟩⟩
      · rw [if_neg hin]
        exact ⟨⟨by omega, by omega⟩, fun hgt hlt => absurd ⟨hgt, hlt⟩ hin⟩

end ChessEngine

namespace ChessEngine

theorem nmLoop_bounds
    (nf : Int → Int → Board → List Move → Nat → Nat → SearchSt →
      Int × List Move × SearchSt)
    (beta : Int) (b : Board) (depth ply : Nat) (isChk : Bool) (ext : Nat) (alpha0 : Int)
    (h0 : -positiveInfinity ≤ alpha0) (h3 : beta ≤ positiveInfinity)
    (hply1 : 1 ≤ ply) (hply : ply + 1 ≤ maxPly) (HNF : nfContract nf) :
    ∀ (ms : List Move) (idx : Nat) (alpha : Int) (line pvOut : List Move) (st : SearchSt)
      (msearched : Nat) (hasLegal : Bool),
      alpha0 ≤ alpha → alpha < beta →
      (hasLegal = true → -positiveInfinity < alpha) →
      (alpha = alpha0 ∨ (-positiveInfinity < alpha ∧
        alpha ≤ positiveInfinity - (ply : Int) - 1 ∧
        -positiveInfinity + (ply : Int) + 2 ≤ alpha)) →
      (-positiveInfinity < (nmLoop nf beta b depth ply isChk ext ms idx alpha line pvOut st
          msearched hasLegal).fst ∧
        (nmLoop nf beta b depth ply isChk ext ms idx alpha line pvOut st
          msearched hasLegal).fst < positiveInfinity) ∧
      ((nmLoop nf beta b depth ply isChk ext ms idx alpha line pvOut st
          msearched hasLegal).fst ≤ max alpha0 (positiveInfinity - (ply : Int) - 1) ∨
        (nmLoop nf beta b depth ply isChk ext ms idx alpha line pvOut st
          msearched hasLegal).fst = beta) ∧
      (min beta (-positiveInfinity + (ply : Int)) ≤
          (nmLoop nf beta b depth ply isChk ext ms idx alpha line pvOut st
            msearched hasLegal).fst ∨
        (nmLoop nf beta b depth ply isChk ext ms idx alpha line pvOut st
          msearched hasLegal).fst = alpha0) := by
  intro ms
  have hM : positiveInfinity = 2147483647 := rfl
  have hmp : maxPly = 256 := rfl
  induction ms with
  | nil =>
    intro idx alpha line pvOut st msearched hasLegal ha0 hab hleg hinv
    rw [hmp] at hply
    cases hasLegal with
    | true =>
      have hr : (nmLoop nf beta b depth ply isChk ext [] idx alpha line pvOut st
          msearched true).fst = alpha := rfl
      rw [hr]
      have := hleg rfl
      refine ⟨⟨by omega, by omega⟩, ?_, ?_⟩
      · rcases hinv with h | h
        · exact Or.inl (by omega)
        · exact Or.inl (by omega)
      · rcases hinv with h | h
        · exact Or.inr h
        · exact Or.inl (by omega)
    | false =>
      cases hchk : isChk with
      | true =>
        have hr : (nmLoop nf beta b depth ply true ext [] idx alpha line pvOut st
            msearched false).fst = negativeInfinity + (ply : Int) := rfl
        rw [hr]
        have hN : negativeInfinity = -2147483647 := rfl
        rw [hN]
        refine ⟨⟨by omega, by omega⟩, Or.inl (by omega), Or.inl (by omega)⟩
      | false =>
        have hr : (nmLoop nf beta b depth ply false ext [] idx alpha line pvOut st
            msearched false).fst = 0 := rfl
        rw [hr]
        refine ⟨⟨by omega, by omega⟩, Or.inl (by omega), Or.inl (by omega)⟩
  | cons m rest ih =>
    intro idx alpha line pvOut st msearched hasLegal ha0 hab hleg hinv
    unfold nmLoop
    dsimp only
    by_cases hlegm : (makeMove b m).fst = true
    · rw [if_neg (by simp [hlegm])]
      set C := pvsChild nf beta depth ply isChk ext m (makeMove b m).snd idx alpha line st
        msearched with hC
      obtain ⟨⟨cT1, cT2⟩, cIn⟩ := pvsChild_bounds nf beta depth ply isChk ext m
        (makeMove b m).snd idx alpha line st msearched (by omega) hab h3 hply HNF
      rw [← hC] at cT1 cT2 cIn
      by_cases hcut : beta ≤ C.fst
      · rw [if_pos hcut]
        refine ⟨⟨by omega, by omega⟩, Or.inr ?_, Or.inl ?_⟩
        · split_ifs <;> rfl
        · split_ifs <;> exact min_le_left _ _
      · rw [if_neg hcut]
        by_cases hraise : alpha < C.fst
        · rw [if_pos hraise]
          obtain ⟨hcu, hcl⟩ := cIn hraise (by omega)
          refine ih _ _ _ _ _ _ _ (by omega) (by omega) (fun _ => by omega)
            (Or.inr ⟨by omega, by omega, by omega⟩)
        · rw [if_neg hraise]
          refine ih _ _ _ _ _ _ _ ha0 hab (fun _ => by omega) hinv
    · rw [if_pos (by simp [Bool.not_eq_true] at hlegm; simp [hlegm])]
      exact ih (idx + 1) alpha line pvOut st msearched hasLegal ha0 hab hleg hinv

end ChessEngine

namespace ChessEngine

theorem negamax_bounds : ∀ fuel, nfContract (negamax fuel) := by
  intro fuel
  induction fuel with
  | zero =>
    intro a2 b2 bd2 pv2 d2 p2 st2 h1 h2 h3 hp1 hp2
    have hM : positiveInfinity = 2147483647 := rfl
    have hmp : maxPly = 256 := rfl
    have he := evalBound bd2
    unfold negamax
    by_cases hd : d2 = 0
    · rw [if_pos hd]
      exact quiescence_bounds 0 a2 b2 bd2 p2 st2 h1 h2 h3 hp2
    · rw [if_neg hd]
      rw [hmp] at hp2
      refine ⟨⟨by omega, by omega⟩, Or.inl ?_, Or.inl ?_⟩ <;> omega
  | succ n ih =>
    intro a2 b2 bd2 pv2 d2 p2 st2 h1 h2 h3 hp1 hp2
    have hM : positiveInfinity = 2147483647 := rfl
    have hmp : maxPly = 256 := rfl
    have he := evalBound bd2
    unfold negamax
    dsimp only
    by_cases hd : d2 = 0
    · rw [if_pos hd]
      exact quiescence_bounds (n + 1) a2 b2 bd2 p2 st2 h1 h2 h3 hp2
    · rw [if_neg hd]
      by_cases hmx : maxPly ≤ p2
      · rw [if_pos hmx]
        rw [hmp] at hp2 hmx
        refine ⟨⟨by omega, by omega⟩, Or.inl ?_, Or.inl ?_⟩ <;> omega
      · rw [if_neg hmx]
        rw [hmp] at hmx
        by_cases hcp : canPrune (isCheck bd2) d2 p2 pv2.length = true
        · rw [if_pos hcp]
          set R := negamax n (-b2) (-b2 + 1) (makeNullMove bd2) [] (d2 - 3) (p2 + 1)
            { st2 with nodes := st2.nodes + 1 } with hR
          obtain ⟨⟨r1, r2⟩, _, _⟩ := ih (-b2) (-b2 + 1) (makeNullMove bd2) [] (d2 - 3)
            (p2 + 1) { st2 with nodes := st2.nodes + 1 }
            (by omega) (by omega) (by omega) (by omega) (by rw [hmp]; omega)
          rw [← hR] at r1 r2
          by_cases hecho : b2 ≤ -R.fst
          · rw [if_pos hecho]
            dsimp only
            refine ⟨⟨by omega, by omega⟩, Or.inr rfl, Or.inl (min_le_left _ _)⟩
          · rw [if_neg hecho]
            dsimp only
            exact nmLoop_bounds (negamax n) b2 bd2 d2 p2 (isCheck bd2)
              (if isCheck bd2 = true then 1 else 0) a2 h1 h3 hp1 (by rw [hmp]; omega) ih
              _ _ _ _ _ _ _ _ le_rfl h2 (fun hx => Bool.noConfusion hx) (Or.inl rfl)
        · rw [if_neg hcp]
          dsimp only
          exact nmLoop_bounds (negamax n) b2 bd2 d2 p2 (isCheck bd2)
            (if isCheck bd2 = true then 1 else 0) a2 h1 h3 hp1 (by rw [hmp]; omega) ih
            _ _ _ _ _ _ _ _ le_rfl h2 (fun hx => Bool.noConfusion hx) (Or.inl rfl)

end ChessEngine

namespace ChessEngine

theorem mem_sortMoves (moves : List Move) (ply : Nat) (pv : List Move) (st : SearchSt)
    (m : Move) : m ∈ sortMoves moves ply pv st ↔ m ∈ moves := by
  unfold sortMoves
  exact (List.perm_insertionSort _ _).mem_iff

theorem nmLoop_all_illegal
    (nf : Int → Int → Board → List Move → Nat → Nat → SearchSt →
      Int × List Move × SearchSt)
    (beta : Int) (b : Board) (depth ply : Nat) (isChk : Bool) (ext : Nat) :
    ∀ (ms : List Move), (∀ m ∈ ms, (makeMove b m).fst = false) →
    ∀ (idx : Nat) (alpha : Int) (line pvOut : List Move) (st : SearchSt)
      (msearched : Nat) (hasLegal : Bool),
      nmLoop nf beta b depth ply isChk ext ms idx alpha line pvOut st msearched hasLegal =
        (if hasLegal then (alpha, pvOut, st)
         else if isChk then (negativeInfinity + (ply : Int), pvOut, st)
         else (0, pvOut, st)) := by
  intro ms
  induction ms with
  | nil => intro _ idx alpha line pvOut st msearched hasLegal; rfl
  | cons m rest ih =>
    intro hall idx alpha line pvOut st msearched hasLegal
    unfold nmLoop
    dsimp only
    rw [if_pos (by simp [hall m (List.mem_cons_self m rest)])]
    exact ih (fun m' hm' => hall m' (List.mem_cons_of_mem _ hm')) _ _ _ _ _ _ _

theorem negamax_mated (fuel : Nat) (b : Board) (hmated : matedBoard b) :
    ∀ (alpha beta : Int) (pv : List Move) (d p : Nat) (st : SearchSt),
      d ≠ 0 → p < maxPly →
      (negamax (fuel + 1) alpha beta b pv d p st).fst = negativeInfinity + (p : Int) := by
  intro alpha beta pv d p st hd hp
  unfold negamax
  dsimp only
  rw [if_neg hd, if_neg (by omega)]
  have hcp : canPrune (isCheck b) d p pv.length = false := by
    unfold canPrune
    rw [hmated.2]
    rfl
  rw [if_neg (by simp [hcp])]
  dsimp only
  rw [nmLoop_all_illegal (negamax fuel) beta b d p (isCheck b)
    (if isCheck b = true then 1 else 0)
    (sortMoves (generateMoves b) p pv { st with nodes := st.nodes + 1 })
    (fun m hm => hmated.1 m ((mem_sortMoves _ _ _ _ m).mp hm)) 0 alpha []
    pv { st with nodes := st.nodes + 1 } 0 false]
  rw [if_neg (by simp), if_pos hmated.2]

theorem quiescence_lower2 (fuel : Nat) (alpha beta : Int) (b : Board) (ply : Nat)
    (st : SearchSt) (h1 : -positiveInfinity ≤ alpha) (h2 : alpha < beta)
    (h3 : beta ≤ positiveInfinity) (hply : ply ≤ maxPly) :
    min beta (-15398400) ≤ (quiescence fuel alpha beta b ply st).fst := by
  have he := evalBound b
  have hM : positiveInfinity = 2147483647 := rfl
  cases fuel with
  | zero =>
    rw [show (quiescence 0 alpha beta b ply st).fst = evaluatePosition b from rfl]
    omega
  | succ n =>
    unfold quiescence
    dsimp only
    by_cases hcap : maxPly ≤ ply
    · rw [if_pos hcap]
      omega
    · rw [if_neg hcap]
      by_cases hbe : beta ≤ evaluatePosition b
      · rw [if_pos hbe]
        omega
      · rw [if_neg hbe]
        have hmp : maxPly = 256 := rfl
        rw [hmp] at hcap hply
        have hq := qLoop_bounds n beta b ply (by rw [hmp]; omega) h3
          (quiescence_bounds n)
          (sortMoves (generateMoves b) ply [] { st with nodes := st.nodes + 1 })
          (if alpha < evaluatePosition b then evaluatePosition b else alpha)
          { st with nodes := st.nodes + 1 }
          (by split_ifs <;> omega) (by split_ifs <;> omega)
        obtain ⟨_, _, hL⟩ := hq
        rcases hL with h | h
        · have ha2 : -15398400 ≤
              (if alpha < evaluatePosition b then evaluatePosition b else alpha) := by
            split_ifs <;> omega
          omega
        · omega

end ChessEngine

namespace ChessEngine

theorem canReduce_depth (idx : Nat) (m : Move) (isChk : Bool) (depth ext : Nat)
    (h : canReduce idx m isChk depth ext = true) : 2 < depth := by
  unfold canReduce at h
  simp only [Bool.and_eq_true, decide_eq_true_eq] at h
  exact h.1.2

theorem canPrune_ply0 (c : Bool) (d l : Nat) : canPrune c d 0 l = false := by
  unfold canPrune
  simp

theorem pvsChild_raise_full
    (nf : Int → Int → Board → List Move → Nat → Nat → SearchSt →
      Int × List Move × SearchSt)
    (beta : Int) (depth ply : Nat) (isChk : Bool) (ext : Nat) (m : Move) (nb : Board)
    (idx : Nat) (alpha : Int) (line : List Move) (st : SearchSt) (ms : Nat)
    (hgt : alpha < (pvsChild nf beta depth ply isChk ext m nb idx alpha line st ms).fst)
    (hlt : (pvsChild nf beta depth ply isChk ext m nb idx alpha line st ms).fst < beta) :
    ∃ (pv2 : List Move) (st2 : SearchSt),
      (pvsChild nf beta depth ply isChk ext m nb idx alpha line st ms).fst =
        -(nf (-beta) (-alpha) nb pv2 (depth - 1 + ext) (ply + 1) st2).fst := by
  unfold pvsChild at hgt hlt ⊢
  dsimp only at hgt hlt ⊢
  by_cases hms : ms = 0
  · rw [if_pos hms]
    exact ⟨line, st, rfl⟩
  · rw [if_neg hms] at hgt hlt ⊢
    by_cases hcr : canReduce idx m isChk depth ext = true
    · rw [if_pos hcr] at hgt hlt ⊢
      dsimp only at hgt hlt ⊢
      set C1 := nf (-alpha - 1) (-alpha) nb line (depth - 2 + ext) (ply + 1) st with hC1
      by_cases hlt0 : alpha < -C1.fst
      · rw [if_pos hlt0] at hgt hlt ⊢
        set C2 := nf (-alpha - 1) (-alpha) nb C1.2.1 (depth - 1 + ext) (ply + 1) C1.2.2
          with hC2
        by_cases hin : alpha < -C2.fst ∧ -C2.fst < beta
        · rw [if_pos hin] at hgt hlt ⊢
          exact ⟨C2.2.1, C2.2.2, rfl⟩
        · rw [if_neg hin] at hgt hlt
          exact absurd ⟨hgt, hlt⟩ hin
      · rw [if_neg hlt0] at hgt
        exact absurd hgt hlt0
    · rw [if_neg hcr] at hgt hlt ⊢
      dsimp only at hgt hlt ⊢
      rw [if_pos (by omega : alpha < alpha + 1)] at hgt hlt ⊢
      set C2 := nf (-alpha - 1) (-alpha) nb line (depth - 1 + ext) (ply + 1) st with hC2
      by_cases hin : alpha < -C2.fst ∧ -C2.fst < beta
      · rw [if_pos hin] at hgt hlt ⊢
        exact ⟨C2.2.1, C2.2.2, rfl⟩
      · rw [if_neg hin] at hgt hlt
        exact absurd ⟨hgt, hlt⟩ hin

theorem pvsChild_mate
    (nf : Int → Int → Board → List Move → Nat → Nat → SearchSt →
      Int × List Move × SearchSt)
    (beta : Int) (depth : Nat) (isChk : Bool) (ext : Nat) (m : Move) (nb : Board)
    (idx : Nat) (alpha : Int) (line : List Move) (st : SearchSt) (ms : Nat)
    (halpha : alpha < positiveInfinity - 1) (hbeta : positiveInfinity - 1 < beta)
    (hd1 : ¬depth - 1 + ext = 0)
    (hd2 : canReduce idx m isChk depth ext = true → ¬depth - 2 + ext = 0)
    (hE : ∀ (a2 b2 : Int) (pv2 : List Move) (d2 : Nat) (st2 : SearchSt), ¬d2 = 0 →
      (nf a2 b2 nb pv2 d2 1 st2).fst = negativeInfinity + 1) :
    (pvsChild nf beta depth 0 isChk ext m nb idx alpha line st ms).fst =
      positiveInfinity - 1 := by
  have hN : negativeInfinity = -positiveInfinity := rfl
  unfold pvsChild
  dsimp only
  by_cases hms : ms = 0
  · rw [if_pos hms]
    rw [hE (-beta) (-alpha) line (depth - 1 + ext) st hd1]
    rw [hN]
    ring
  · rw [if_neg hms]
    by_cases hcr : canReduce idx m isChk depth ext = true
    · rw [if_pos hcr]
      dsimp only
      set C1 := nf (-alpha - 1) (-alpha) nb line (depth - 2 + ext) (0 + 1) st with hC1
      have h1 : C1.fst = negativeInfinity + 1 := by
        rw [hC1]
        exact hE (-alpha - 1) (-alpha) line (depth - 2 + ext) st (hd2 hcr)
      rw [if_pos (by rw [h1, hN]; omega : alpha < -C1.fst)]
      set C2 := nf (-alpha - 1) (-alpha) nb C1.2.1 (depth - 1 + ext) (0 + 1) C1.2.2
        with hC2
      have h2 : C2.fst = negativeInfinity + 1 := by
        rw [hC2]
        exact hE (-alpha - 1) (-alpha) C1.2.1 (depth - 1 + ext) C1.2.2 hd1
      rw [if_pos (by rw [h2, hN]; constructor <;> omega :
        alpha < -C2.fst ∧ -C2.fst < beta)]
      set C3 := nf (-beta) (-alpha) nb C2.2.1 (depth - 1 + ext) (0 + 1) C2.2.2 with hC3
      have h3 : C3.fst = negativeInfinity + 1 := by
        rw [hC3]
        exact hE (-beta) (-alpha) C2.2.1 (depth - 1 + ext) C2.2.2 hd1
      rw [h3, hN]
      ring
    · rw [if_neg hcr]
      dsimp only
      rw [if_pos (by omega : alpha < alpha + 1)]
      set C2 := nf (-alpha - 1) (-alpha) nb line (depth - 1 + ext) (0 + 1) st with hC2
      have h2 : C2.fst = negativeInfinity + 1 := by
        rw [hC2]
        exact hE (-alpha - 1) (-alpha) line (depth - 1 + ext) st hd1
      rw [if_pos (by rw [h2, hN]; constructor <;> omega :
        alpha < -C2.fst ∧ -C2.fst < beta)]
      set C3 := nf (-beta) (-alpha) nb C2.2.1 (depth - 1 + ext) (0 + 1) C2.2.2 with hC3
      have h3 : C3.fst = negativeInfinity + 1 := by
        rw [hC3]
        exact hE (-beta) (-alpha) C2.2.1 (depth - 1 + ext) C2.2.2 hd1
      rw [h3, hN]
      ring

end ChessEngine

namespace ChessEngine

theorem nmLoopD (n : Nat) (betaC : Int) (nb : Board) (d : Nat) (isChk : Bool) (ext : Nat)
    (hb1 : -positiveInfinity + 1 < betaC) (hb2 : betaC ≤ positiveInfinity) :
    ∀ (ms : List Move) (idx : Nat) (alpha : Int) (line pvOut : List Move) (st : SearchSt)
      (msearched : Nat) (hasLegal : Bool),
      -positiveInfinity ≤ alpha → alpha < betaC → ¬alpha = -positiveInfinity + 1 →
      (nmLoop (negamax n) betaC nb d 1 isChk ext ms idx alpha line pvOut st msearched
          hasLegal).fst = negativeInfinity + 1 →
      isChk = true ∧ hasLegal = false ∧ ∀ m ∈ ms, (makeMove nb m).fst = false := by
  intro ms
  have hM : positiveInfinity = 2147483647 := rfl
  have hN : negativeInfinity = -positiveInfinity := rfl
  induction ms with
  | nil =>
    intro idx alpha line pvOut st msearched hasLegal ha hab hne hret
    cases hasLegal with
    | true =>
      rw [show (nmLoop (negamax n) betaC nb d 1 isChk ext [] idx alpha line pvOut st
          msearched true).fst = alpha from rfl] at hret
      rw [hN] at hret
      exact absurd hret hne
    | false =>
      cases hchk : isChk with
      | true => exact ⟨rfl, rfl, by simp⟩
      | false =>
        rw [hchk] at hret
        rw [show (nmLoop (negamax n) betaC nb d 1 false ext [] idx alpha line pvOut st
            msearched false).fst = 0 from rfl] at hret
        rw [hN] at hret
        omega
  | cons m rest ih =>
    intro idx alpha line pvOut st msearched hasLegal ha hab hne hret
    unfold nmLoop at hret
    dsimp only at hret
    by_cases hlegm : (makeMove nb m).fst = true
    · rw [if_neg (by simp [hlegm])] at hret
      set C := pvsChild (negamax n) betaC d 1 isChk ext m (makeMove nb m).snd idx alpha
        line st msearched with hC
      obtain ⟨⟨cT1, cT2⟩, _⟩ := pvsChild_bounds (negamax n) betaC d 1 isChk ext m
        (makeMove nb m).snd idx alpha line st msearched ha hab hb2 (by decide)
        (negamax_bounds n)
      rw [← hC] at cT1 cT2
      by_cases hcut : betaC ≤ C.fst
      · rw [if_pos hcut] at hret
        dsimp only at hret
        rw [hN] at hret
        omega
      · rw [if_neg hcut] at hret
        by_cases hraise : alpha < C.fst
        · rw [if_pos hraise] at hret
          have hne2 : ¬C.fst = -positiveInfinity + 1 := by
            intro hCv
            obtain ⟨pv2, st2, heq⟩ := pvsChild_raise_full (negamax n) betaC d 1 isChk ext
              m (makeMove nb m).snd idx alpha line st msearched
              (by rw [← hC]; exact hraise) (by rw [← hC]; omega)
            rw [← hC] at heq
            have hval : (negamax n (-betaC) (-alpha) (makeMove nb m).snd pv2
                (d - 1 + ext) 2 st2).fst = positiveInfinity - 1 := by
              have h2 := heq.symm.trans hCv
              linarith [h2]
            obtain ⟨_, hU, _⟩ := negamax_bounds n (-betaC) (-alpha) (makeMove nb m).snd
              pv2 (d - 1 + ext) 2 st2 (by omega) (by omega) (by omega) (by omega)
              (by decide)
            push_cast at hU
            rw [hval] at hU
            rw [hCv] at hraise
            rcases hU with h | h <;> omega
          have hres := ih _ _ _ _ _ _ _ (by omega) (by omega) hne2 hret
          exact absurd hres.2.1 (by simp)
        · rw [if_neg hraise] at hret
          have hres := ih _ _ _ _ _ _ _ ha hab hne hret
          exact absurd hres.2.1 (by simp)
    · rw [if_pos (by simp [Bool.not_eq_true] at hlegm; simp [hlegm])] at hret
      have hres := ih _ _ _ _ _ _ _ ha hab hne hret
      refine ⟨hres.1, hres.2.1, fun m' hm' => ?_⟩
      rcases List.mem_cons.mp hm' with he | hm2
      · subst he
        simp only [Bool.not_eq_true] at hlegm
        exact hlegm
      · exact hres.2.2 m' hm2

theorem negamax_provenance (fuel : Nat) (nb : Board) (alphaR : Int) (pv : List Move)
    (d : Nat) (st : SearchSt)
    (h0 : -positiveInfinity ≤ alphaR) (hup : alphaR < positiveInfinity - 1)
    (hret : (negamax fuel (-positiveInfinity) (-alphaR) nb pv d 1 st).fst =
      negativeInfinity + 1) :
    matedBoard nb := by
  have hM : positiveInfinity = 2147483647 := rfl
  have hN : negativeInfinity = -positiveInfinity := rfl
  have he := evalBound nb
  cases fuel with
  | zero =>
    exfalso
    unfold negamax at hret
    by_cases hd : d = 0
    · rw [if_pos hd] at hret
      rw [show (quiescence 0 (-positiveInfinity) (-alphaR) nb 1 st).fst =
        evaluatePosition nb from rfl] at hret
      omega
    · rw [if_neg hd] at hret
      dsimp only at hret
      omega
  | succ n =>
    unfold negamax at hret
    dsimp only at hret
    by_cases hd : d = 0
    · exfalso
      rw [if_pos hd] at hret
      dsimp only at hret
      have hl2 := quiescence_lower2 (n + 1) (-positiveInfinity) (-alphaR) nb 1 st
        (by omega) (by omega) (by omega) (by decide)
      omega
    · rw [if_neg hd, if_neg (by decide : ¬maxPly ≤ 1)] at hret
      by_cases hcp : canPrune (isCheck nb) d 1 pv.length = true
      · rw [if_pos hcp] at hret
        set R := negamax n (- -alphaR) (- -alphaR + 1) (makeNullMove nb) [] (d - 3)
          (1 + 1) { st with nodes := st.nodes + 1 } with hR
        by_cases hecho : -alphaR ≤ -R.fst
        · rw [if_pos hecho] at hret
          dsimp only at hret
          exfalso
          rw [hN] at hret
          omega
        · rw [if_neg hecho] at hret
          dsimp only at hret
          have hres := nmLoopD n (-alphaR) nb d (isCheck nb)
            (if isCheck nb = true then 1 else 0) (by omega) (by omega) _ 0
            (-positiveInfinity) _ _ _ 0 false le_rfl (by omega) (by omega) hret
          exact ⟨fun m hm => hres.2.2 m ((mem_sortMoves _ _ _ _ m).mpr hm), hres.1⟩
      · rw [if_neg hcp] at hret
        dsimp only at hret
        have hres := nmLoopD n (-alphaR) nb d (isCheck nb)
          (if isCheck nb = true then 1 else 0) (by omega) (by omega) _ 0
          (-positiveInfinity) _ _ _ 0 false le_rfl (by omega) (by omega) hret
        exact ⟨fun m hm => hres.2.2 m ((mem_sortMoves _ _ _ _ m).mpr hm), hres.1⟩

end ChessEngine

namespace ChessEngine

theorem nmLoopRoot (n : Nat) (b : Board) (depth : Nat) (isChk : Bool) (ext : Nat)
    (hd : 2 ≤ depth) :
    ∀ (ms : List Move) (idx : Nat) (alpha : Int) (line pvOut : List Move) (st : SearchSt)
      (msearched : Nat) (hasLegal : Bool),
      -positiveInfinity ≤ alpha →
      (∀ m' ∈ ms, m' ∈ generateMoves b) →
      ((alpha = positiveInfinity - 1 ∧ hasLegal = true ∧
          ∃ mm l, pvOut = mm :: l ∧ isMatingMove b mm) ∨
        (alpha < positiveInfinity - 1 ∧ ∃ mm, mm ∈ ms ∧ isMatingMove b mm)) →
      (nmLoop (negamax (n + 1)) positiveInfinity b depth 0 isChk ext ms idx alpha line
          pvOut st msearched hasLegal).fst = positiveInfinity - 1 ∧
      ∃ mm l, (nmLoop (negamax (n + 1)) positiveInfinity b depth 0 isChk ext ms idx alpha
          line pvOut st msearched hasLegal).2.1 = mm :: l ∧ isMatingMove b mm := by
  intro ms
  have hM : positiveInfinity = 2147483647 := rfl
  have hN : negativeInfinity = -positiveInfinity := rfl
  induction ms with
  | nil =>
    intro idx alpha line pvOut st msearched hasLegal ha hsub hinv
    rcases hinv with ⟨hA, hHL, mm, l, hpv, hmate⟩ | ⟨_, mm, hmm, _⟩
    · subst hHL
      refine ⟨hA, mm, l, hpv, hmate⟩
    · exact absurd hmm (List.not_mem_nil mm)
  | cons m rest ih =>
    intro idx alpha line pvOut st msearched hasLegal ha hsub hinv
    unfold nmLoop
    dsimp only
    by_cases hlegm : (makeMove b m).fst = true
    · rw [if_neg (by simp [hlegm])]
      set C := pvsChild (negamax (n + 1)) positiveInfinity depth 0 isChk ext m
        (makeMove b m).snd idx alpha line st msearched with hC
      have haM : alpha < positiveInfinity := by
        rcases hinv with ⟨hA, _⟩ | ⟨hA, _⟩ <;> omega
      obtain ⟨⟨cT1, cT2⟩, _⟩ := pvsChild_bounds (negamax (n + 1)) positiveInfinity depth
        0 isChk ext m (makeMove b m).snd idx alpha line st msearched ha haM le_rfl
        (by decide) (negamax_bounds (n + 1))
      rw [← hC] at cT1 cT2
      rw [if_neg (by omega : ¬positiveInfinity ≤ C.fst)]
      by_cases hraise : alpha < C.fst
      · rw [if_pos hraise]
        rcases hinv with ⟨hA, _, _⟩ | ⟨hA, mm, hmm, hmate⟩
        · exfalso
          omega
        · by_cases hCval : C.fst = positiveInfinity - 1
          · obtain ⟨pv2, st2, heq⟩ := pvsChild_raise_full (negamax (n + 1))
              positiveInfinity depth 0 isChk ext m (makeMove b m).snd idx alpha line st
              msearched (by rw [← hC]; exact hraise) (by rw [← hC]; omega)
            rw [← hC] at heq
            have hret2 : (negamax (n + 1) (-positiveInfinity) (-alpha) (makeMove b m).snd
                pv2 (depth - 1 + ext) 1 st2).fst = negativeInfinity + 1 := by
              have h2 := heq.symm.trans hCval
              rw [hN]
              linarith [h2]
            have hmated := negamax_provenance (n + 1) (makeMove b m).snd alpha pv2
              (depth - 1 + ext) st2 ha (by omega) hret2
            have hmateM : isMatingMove b m :=
              ⟨hsub m (List.mem_cons_self m rest), hlegm, hmated⟩
            refine ih _ _ _ _ _ _ _ (by omega)
              (fun m' hm' => hsub m' (List.mem_cons_of_mem _ hm'))
              (Or.inl ⟨hCval, rfl, m, C.2.1, rfl, hmateM⟩)
          · have hmmrest : mm ∈ rest := by
              rcases List.mem_cons.mp hmm with he | h2
              · exfalso
                subst he
                have hE : ∀ (a2 b2 : Int) (pv2 : List Move) (d2 : Nat) (st2 : SearchSt),
                    ¬d2 = 0 → (negamax (n + 1) a2 b2 (makeMove b mm).snd pv2 d2 1
                      st2).fst = negativeInfinity + 1 := by
                  intro a2 b2 pv2 d2 st2 hd2
                  have h5 := negamax_mated n (makeMove b mm).snd hmate.2.2 a2 b2 pv2 d2 1
                    st2 hd2 (by decide)
                  simpa using h5
                have h6 := pvsChild_mate (negamax (n + 1)) positiveInfinity depth isChk
                  ext mm (makeMove b mm).snd idx alpha line st msearched (by omega)
                  (by omega) (by omega)
                  (fun hcr => by have := canReduce_depth _ _ _ _ _ hcr; omega) hE
                rw [← hC] at h6
                exact hCval h6
              · exact h2
            exact ih _ _ _ _ _ _ _ (by omega)
              (fun m' hm' => hsub m' (List.mem_cons_of_mem _ hm'))
              (Or.inr ⟨by omega, mm, hmmrest, hmate⟩)
      · rw [if_neg hraise]
        rcases hinv with ⟨hA, _, hpv⟩ | ⟨hA, mm, hmm, hmate⟩
        · exact ih _ _ _ _ _ _ _ ha
            (fun m' hm' => hsub m' (List.mem_cons_of_mem _ hm'))
            (Or.inl ⟨hA, rfl, hpv⟩)
        · have hmmrest : mm ∈ rest := by
            rcases List.mem_cons.mp hmm with he | h2
            · exfalso
              subst he
              have hE : ∀ (a2 b2 : Int) (pv2 : List Move) (d2 : Nat) (st2 : SearchSt),
                  ¬d2 = 0 → (negamax (n + 1) a2 b2 (makeMove b mm).snd pv2 d2 1
                    st2).fst = negativeInfinity + 1 := by
                intro a2 b2 pv2 d2 st2 hd2
                have h5 := negamax_mated n (makeMove b mm).snd hmate.2.2 a2 b2 pv2 d2 1
                  st2 hd2 (by decide)
                simpa using h5
              have h6 := pvsChild_mate (negamax (n + 1)) positiveInfinity depth isChk
                ext mm (makeMove b mm).snd idx alpha line st msearched (by omega)
                (by omega) (by omega)
                (fun hcr => by have := canReduce_depth _ _ _ _ _ hcr; omega) hE
              rw [← hC] at h6
              exact hraise (by omega)
            · exact h2
          exact ih _ _ _ _ _ _ _ ha
            (fun m' hm' => hsub m' (List.mem_cons_of_mem _ hm'))
            (Or.inr ⟨hA, mm, hmmrest, hmate⟩)
    · rw [if_pos (by simp [Bool.not_eq_true] at hlegm; simp [hlegm])]
      rcases hinv with hL | ⟨hA, mm, hmm, hmate⟩
      · exact ih _ _ _ _ _ _ _ ha
          (fun m' hm' => hsub m' (List.mem_cons_of_mem _ hm')) (Or.inl hL)
      · have hmmrest : mm ∈ rest := by
          rcases List.mem_cons.mp hmm with he | h2
          · exfalso
            subst he
            exact hlegm hmate.2.1
          · exact h2
        exact ih _ _ _ _ _ _ _ ha
          (fun m' hm' => hsub m' (List.mem_cons_of_mem _ hm'))
          (Or.inr ⟨hA, mm, hmmrest, hmate⟩)

end ChessEngine

namespace ChessEngine

theorem negamax_root (n : Nat) (b : Board) (depth : Nat) (pvIn : List Move)
    (st : SearchSt) (hmate : mateInOne b) (hd : 2 ≤ depth) :
    (negamax (n + 2) negativeInfinity positiveInfinity b pvIn depth 0 st).fst =
      positiveInfinity - 1 ∧
    ∃ mm l, (negamax (n + 2) negativeInfinity positiveInfinity b pvIn depth 0 st).2.1 =
      mm :: l ∧ isMatingMove b mm := by
  have hN : negativeInfinity = -positiveInfinity := rfl
  obtain ⟨m0, hm0, hmate0⟩ := hmate
  rw [show n + 2 = (n + 1) + 1 from rfl]
  unfold negamax
  dsimp only
  rw [if_neg (by omega), if_neg (by decide : ¬maxPly ≤ 0)]
  rw [if_neg (by rw [canPrune_ply0]; simp)]
  dsimp only
  exact nmLoopRoot n b depth (isCheck b) (if isCheck b = true then 1 else 0) hd
    (sortMoves (generateMoves b) 0 pvIn { st with nodes := st.nodes + 1 }) 0
    negativeInfinity [] pvIn { st with nodes := st.nodes + 1 } 0 false
    (by rw [hN])
    (fun m' hm' => (mem_sortMoves _ _ _ _ m').mp hm')
    (Or.inr ⟨by rw [hN]; have hM : positiveInfinity = 2147483647 := rfl; omega,
      m0, (mem_sortMoves _ _ _ _ m0).mpr hm0, hmate0⟩)

/-- C6, confirmed.  On every position with a mate in one, `search` at any
depth at least 2 returns the score `INT_MAX - 1` and a mating move as the
best move: the mated child returns `-INT_MAX + 1` regardless of its window,
the root loop raises alpha to exactly `INT_MAX - 1` on that move, no other
move can reach or beat that score (every search value is strictly inside
`(-INT_MAX, INT_MAX)` and a root score of exactly `INT_MAX - 1` can only
originate from a mated child), and the beta cutoff at the root window
`INT_MAX` can never fire. -/
theorem C6_mate_in_one (b : Board) (depth : Nat) (hmate : mateInOne b) (hd : 2 ≤ depth) :
    (search b depth).fst = positiveInfinity - 1 ∧
    ∃ m, isMatingMove b m ∧ (search b depth).snd = m := by
  unfold search
  dsimp only
  obtain ⟨d2, rfl⟩ : ∃ d2, depth = d2 + 1 := ⟨depth - 1, by omega⟩
  rw [List.range_succ, List.foldl_append]
  simp only [List.foldl_cons, List.foldl_nil]
  rw [show maxPly = 254 + 2 from rfl]
  obtain ⟨h1, mm, l, h2, h3⟩ := negamax_root 254 b (d2 + 1)
    ((List.range d2).foldl
      (fun acc i =>
        negamax (254 + 2) negativeInfinity positiveInfinity b acc.2.1 (i + 1) 0
          acc.2.2) (0, [], initSearchSt)).2.1
    ((List.range d2).foldl
      (fun acc i =>
        negamax (254 + 2) negativeInfinity positiveInfinity b acc.2.1 (i + 1) 0
          acc.2.2) (0, [], initSearchSt)).2.2
    hmate (by omega)
  refine ⟨h1, mm, h3, ?_⟩
  rw [h2]
  rfl

/-- C6, witness: queen a1, king g6 against the bare king h8 — mate in one by
Qa8 — searched at depth 2 yields INT_MAX - 1 with best move a1a8. -/
theorem C6_witness :
    mateInOne mateInOneBoard ∧ 2 ≤ 2 ∧
    ((search mateInOneBoard 2).fst = positiveInfinity - 1 ∧
      ∃ m, isMatingMove mateInOneBoard m ∧ (search mateInOneBoard 2).snd = m) := by
  have h := C6_mate_in_one mateInOneBoard 2 (by decide) (by decide)
  exact ⟨by decide, by decide, h⟩

end ChessEngine
